import Mathlib

/-!
# Comment threads and reaction toggling of `server.js`

A shallow embedding of three request handlers of `src/server.js`:

* `GET /comments?postId=…` with its local recursive function `buildCommentTree`,
* `DELETE /comments/:id` with its local recursive function `deleteWithChildren`,
* `PUT /posts/:id/like`, the like/dislike toggler.

JavaScript values stored in the JSON document are modelled by `JSVal`;
numbers are exact integers (ids are produced by `Date.now()`), so neither
`NaN` nor rounding of doubles is modelled.  The two recursive functions carry
a `fuel` argument that bounds the depth of the JavaScript call stack: the
result `none` stands for the `RangeError` the engine throws when the stack is
exhausted.
-/

namespace ASM

/-! ## JavaScript values and equality -/

/-- The JSON values that occur in the id fields of a comment. -/
inductive JSVal where
  | null : JSVal
  | undefined : JSVal
  | num (n : Int) : JSVal
  | str (s : String) : JSVal
  deriving DecidableEq, Repr

/-- White space that `StringToNumber` strips at both ends. -/
def isJSWhiteSpace (c : Char) : Bool :=
  c.toNat = 9 || c.toNat = 10 || c.toNat = 11 || c.toNat = 12 || c.toNat = 13 ||
  c.toNat = 32 || c.toNat = 160 || c.toNat = 5760 ||
  (8192 ≤ c.toNat && c.toNat ≤ 8202) || c.toNat = 8232 || c.toNat = 8233 ||
  c.toNat = 8239 || c.toNat = 8287 || c.toNat = 12288 || c.toNat = 65279

/-- Value of a digit character in the given radix (at most 16). -/
def digitValue (radix : Nat) (c : Char) : Option Nat :=
  let n := c.toNat
  let v : Option Nat :=
    if 48 ≤ n ∧ n ≤ 57 then some (n - 48)
    else if 97 ≤ n ∧ n ≤ 102 then some (n - 87)
    else if 65 ≤ n ∧ n ≤ 70 then some (n - 55)
    else none
  match v with
  | some d => if d < radix then some d else none
  | none => none

/-- Reads a run of digits with an accumulator; `none` on a foreign character. -/
def readDigits (radix : Nat) : List Char → Nat → Option Nat
  | [], acc => some acc
  | c :: cs, acc =>
    match digitValue radix c with
    | some d => readDigits radix cs (acc * radix + d)
    | none => none

/-- A non-empty run of digits in the given radix. -/
def readNumeral (radix : Nat) (cs : List Char) : Option Nat :=
  match cs with
  | [] => none
  | _ => readDigits radix cs 0

/-- Splits a list at the first character satisfying `p`, dropping that character. -/
def splitAtChar (p : Char → Bool) : List Char → List Char × Option (List Char)
  | [] => ([], none)
  | c :: cs =>
    if p c then ([], some cs)
    else
      let r := splitAtChar p cs
      (c :: r.1, r.2)

/-- The exponent part of a decimal literal: an optional sign and digits. -/
def readExponent (cs : List Char) : Option Int :=
  match cs with
  | '+' :: ds => (readNumeral 10 ds).map Int.ofNat
  | '-' :: ds => (readNumeral 10 ds).map (fun n => - Int.ofNat n)
  | ds => (readNumeral 10 ds).map Int.ofNat

/-- An unsigned decimal literal `digits[.digits][e[±]digits]`, evaluated exactly;
`none` when the text is no such literal or its value is not an integer. -/
def readUnsignedDecimal (cs : List Char) : Option Int :=
  let se := splitAtChar (fun c => c = 'e' || c = 'E') cs
  let sf := splitAtChar (fun c => c = '.') se.1
  let intPart := sf.1
  let fracPart := sf.2.getD []
  let expo : Option Int :=
    match se.2 with
    | none => some 0
    | some es => readExponent es
  match intPart, fracPart with
  | [], [] => none
  | _, _ =>
    match readDigits 10 (intPart ++ fracPart) 0, expo with
    | some m, some e =>
      let shift : Int := e - Int.ofNat fracPart.length
      if 0 ≤ shift then some (Int.ofNat (m * 10 ^ shift.toNat))
      else if m % 10 ^ (-shift).toNat = 0 then some (Int.ofNat (m / 10 ^ (-shift).toNat))
      else none
    | _, _ => none

/-- The abstract operation `StringToNumber` on a trimmed text, restricted to
integral results: `none` stands for `NaN`, an infinity or a non-integral value. -/
def readTrimmed (cs : List Char) : Option Int :=
  match cs with
  | [] => some 0
  | '0' :: 'x' :: ds => (readNumeral 16 ds).map Int.ofNat
  | '0' :: 'X' :: ds => (readNumeral 16 ds).map Int.ofNat
  | '0' :: 'o' :: ds => (readNumeral 8 ds).map Int.ofNat
  | '0' :: 'O' :: ds => (readNumeral 8 ds).map Int.ofNat
  | '0' :: 'b' :: ds => (readNumeral 2 ds).map Int.ofNat
  | '0' :: 'B' :: ds => (readNumeral 2 ds).map Int.ofNat
  | '+' :: ds => readUnsignedDecimal ds
  | '-' :: ds => (readUnsignedDecimal ds).map (fun n => - n)
  | ds => readUnsignedDecimal ds

/-- The conversion `Number(s)` that `==` applies to a string compared with a
number.  `none` is a result that equals no integer. -/
def stringToNumber (s : String) : Option Int :=
  readTrimmed ((s.toList.dropWhile isJSWhiteSpace).reverse.dropWhile isJSWhiteSpace).reverse

/-- Strict equality `a === b` on the modelled values. -/
def strictEq (a b : JSVal) : Bool := decide (a = b)

/-- Loose equality `a == b` on the modelled values: `null` and `undefined`
equal each other, and a string compared with a number is converted first. -/
def looseEq : JSVal → JSVal → Bool
  | JSVal.null, JSVal.null => true
  | JSVal.null, JSVal.undefined => true
  | JSVal.undefined, JSVal.null => true
  | JSVal.undefined, JSVal.undefined => true
  | JSVal.num a, JSVal.num b => decide (a = b)
  | JSVal.str a, JSVal.str b => decide (a = b)
  | JSVal.num a, JSVal.str b => decide (stringToNumber b = some a)
  | JSVal.str a, JSVal.num b => decide (stringToNumber a = some b)
  | _, _ => false

/-! ## Comments -/

/-- A stored comment.  `id` is the number written by `Date.now()`; `postId`
and `parentId` are kept as the raw stored values. -/
structure Comment where
  id : Int
  postId : JSVal
  parentId : JSVal
  author : String
  body : String
  deriving DecidableEq, Repr

/-! ## `DELETE /comments/:id` -/

/-- The `for (const child of children)` loop of `deleteWithChildren`: `rec` is
the recursive call, the second list is the current value of the variable
`comments`, which every call replaces. -/
def deleteLoop (rec : List Comment → Int → Option (List Comment)) :
    List Comment → List Comment → Option (List Comment)
  | [], comments => some comments
  | child :: rest, comments =>
    match rec comments child.id with
    | none => none
    | some comments1 => deleteLoop rec rest comments1

/-- The local function `deleteWithChildren (id)`: the state is the captured
variable `comments`, passed in and returned.  `fuel` bounds the call depth. -/
def deleteWithChildren : Nat → List Comment → Int → Option (List Comment)
  | 0, _, _ => none
  | fuel + 1, comments, id =>
    let children := comments.filter (fun c => strictEq c.parentId (JSVal.num id))
    match deleteLoop (deleteWithChildren fuel) children comments with
    | none => none
    | some comments1 => some (comments1.filter (fun c => decide (c.id ≠ id)))

/-- Outcome of the handler of `DELETE /comments/:id`: the status, the error
text if any, and the comment list passed to `writeDB` if it was called. -/
structure DeleteResponse where
  status : Nat
  error : Option String
  written : Option (List Comment)
  deriving DecidableEq, Repr

/-- The handler of `DELETE /comments/:id` on the stored comments, with
`commentId` the integer read by `parseInt`.  A stack overflow inside the
recursion is caught by the `catch` clause. -/
def deleteCommentHandler (fuel : Nat) (comments : List Comment) (commentId : Int) :
    DeleteResponse :=
  match comments.find? (fun c => decide (c.id = commentId)) with
  | none => { status := 404, error := some "Comment not found", written := none }
  | some _ =>
    match deleteWithChildren fuel comments commentId with
    | some comments1 => { status := 204, error := none, written := some comments1 }
    | none => { status := 500, error := some "Không thể xoá comment", written := none }

/-- The comment collection held by the store after the request. -/
def storedAfterDelete (fuel : Nat) (comments : List Comment) (commentId : Int) :
    List Comment :=
  ((deleteCommentHandler fuel comments commentId).written).getD comments

/-! ## `GET /comments?postId=…` -/

/-- A comment together with its nested replies, as the handler answers it. -/
inductive CommentNode where
  | mk (comment : Comment) (replies : List CommentNode) : CommentNode

/-- The comment at a node. -/
def CommentNode.comment : CommentNode → Comment
  | CommentNode.mk c _ => c

/-- The `replies` field of a node. -/
def CommentNode.replies : CommentNode → List CommentNode
  | CommentNode.mk _ r => r

/-- Collects the results of the callbacks of `.map`; an exception thrown by
one of them (`none`) aborts the whole `.map`. -/
def collectNodes : List (Option CommentNode) → Option (List CommentNode)
  | [] => some []
  | none :: _ => none
  | some n :: rest =>
    match collectNodes rest with
    | none => none
    | some ns => some (n :: ns)

/-- The filter callback of `buildCommentTree`. -/
def isReplyTo (parentId : JSVal) (comment : Comment) : Bool :=
  if parentId = JSVal.null then
    strictEq comment.parentId JSVal.null || strictEq comment.parentId JSVal.undefined
  else
    looseEq comment.parentId parentId

/-- The local function `buildCommentTree (parentId = null)` over the captured
list `postComments`.  `fuel` bounds the call depth. -/
def buildCommentTree (postComments : List Comment) : Nat → JSVal → Option (List CommentNode)
  | 0, _ => none
  | fuel + 1, parentId =>
    collectNodes ((postComments.filter (isReplyTo parentId)).map (fun comment =>
      (buildCommentTree postComments fuel (JSVal.num comment.id)).map
        (fun replies => CommentNode.mk comment replies)))

/-- The comments of the post, `comments.filter(c => c.postId == postId)`;
`postId` is the text of the query parameter. -/
def postCommentsOf (comments : List Comment) (postId : String) : List Comment :=
  comments.filter (fun c => looseEq c.postId (JSVal.str postId))

/-- The body of the branch `if (postId)` of the handler of `GET /comments`. -/
def commentTree (fuel : Nat) (comments : List Comment) (postId : String) :
    Option (List CommentNode) :=
  buildCommentTree (postCommentsOf comments postId) fuel JSVal.null

mutual
/-- Number of nodes of a tree, the node itself included. -/
def CommentNode.size : CommentNode → Nat
  | CommentNode.mk _ r => 1 + forestSize r
/-- Number of nodes of a forest, nested replies included. -/
def forestSize : List CommentNode → Nat
  | [] => 0
  | n :: ns => n.size + forestSize ns
end

mutual
/-- All nodes of a tree in pre-order. -/
def CommentNode.nodes : CommentNode → List CommentNode
  | CommentNode.mk c r => CommentNode.mk c r :: forestNodes r
/-- All nodes of a forest in pre-order, nested replies included. -/
def forestNodes : List CommentNode → List CommentNode
  | [] => []
  | n :: ns => n.nodes ++ forestNodes ns
end

/-! ## `PUT /posts/:id/like` -/

/-- The reaction fields of a post, after the handler has defaulted absent
fields (`|| []`, `|| 0`). -/
structure ReactionState where
  likes : Int
  dislikes : Int
  userLiked : List String
  userDisliked : List String
  deriving DecidableEq, Repr

/-- What the handler of `PUT /posts/:id/like` does on a post that exists: the
post afterwards, whether `writeDB` was called, the HTTP status and the
`message` field of the answer.  The answer carries the four fields of `post`. -/
structure LikeResult where
  post : ReactionState
  saved : Bool
  status : Nat
  message : Option String
  deriving DecidableEq, Repr

/-- The branch `action === 'like'`. -/
def likeBranch (post : ReactionState) (username : String) : LikeResult :=
  if ¬ post.userLiked.contains username then
    let post1 : ReactionState :=
      { post with userLiked := post.userLiked ++ [username], likes := post.likes + 1 }
    let post2 : ReactionState :=
      if post1.userDisliked.contains username then
        { post1 with userDisliked := post1.userDisliked.erase username,
                     dislikes := post1.dislikes - 1 }
      else post1
    { post := post2, saved := true, status := 200, message := none }
  else
    { post := post, saved := false, status := 200,
      message := some "Bạn đã like bài viết này!" }

/-- The branch `action === 'dislike'`. -/
def dislikeBranch (post : ReactionState) (username : String) : LikeResult :=
  if ¬ post.userDisliked.contains username then
    let post1 : ReactionState :=
      { post with userDisliked := post.userDisliked ++ [username],
                  dislikes := post.dislikes + 1 }
    let post2 : ReactionState :=
      if post1.userLiked.contains username then
        { post1 with userLiked := post1.userLiked.erase username, likes := post1.likes - 1 }
      else post1
    { post := post2, saved := true, status := 200, message := none }
  else
    { post := post, saved := true, status := 200, message := none }

/-- The branch `action === 'unlike'`. -/
def unlikeBranch (post : ReactionState) (username : String) : LikeResult :=
  if post.userLiked.contains username then
    { post := { post with userLiked := post.userLiked.erase username,
                          likes := post.likes - 1 },
      saved := true, status := 200, message := none }
  else
    { post := post, saved := true, status := 200, message := none }

/-- The branch `action === 'undislike'`. -/
def undislikeBranch (post : ReactionState) (username : String) : LikeResult :=
  if post.userDisliked.contains username then
    { post := { post with userDisliked := post.userDisliked.erase username,
                          dislikes := post.dislikes - 1 },
      saved := true, status := 200, message := none }
  else
    { post := post, saved := true, status := 200, message := none }

/-- The handler of `PUT /posts/:id/like` on the post it found. -/
def likeHandler (post : ReactionState) (username action : String) : LikeResult :=
  if action = "like" then likeBranch post username
  else if action = "dislike" then dislikeBranch post username
  else if action = "unlike" then unlikeBranch post username
  else if action = "undislike" then undislikeBranch post username
  else { post := post, saved := true, status := 200, message := none }

/-- The reaction state after one request. -/
def applyReaction (post : ReactionState) (username action : String) : ReactionState :=
  (likeHandler post username action).post

/-- The reaction state after a sequence of requests `(username, action)`. -/
def applyReactions (post : ReactionState) (steps : List (String × String)) : ReactionState :=
  steps.foldl (fun s step => applyReaction s step.1 step.2) post

/-- The reaction state of a post nobody has reacted to. -/
def emptyReactions : ReactionState :=
  { likes := 0, dislikes := 0, userLiked := [], userDisliked := [] }

/-! ## Notions of the specification -/

/-- The data-model invariant of a reaction state. -/
def ReactionInv (s : ReactionState) : Prop :=
  s.userLiked.Nodup ∧ s.userDisliked.Nodup ∧
  (∀ u, u ∈ s.userLiked → u ∉ s.userDisliked) ∧
  s.likes = (s.userLiked.length : Int) ∧ s.dislikes = (s.userDisliked.length : Int)

instance (s : ReactionState) : Decidable (ReactionInv s) := by
  unfold ReactionInv
  infer_instance

/-- The four actions the specification's transition table knows. -/
inductive Action where
  | like | dislike | unlike | undislike
  deriving DecidableEq, Repr

/-- The text of an action as the request body carries it. -/
def Action.name : Action → String
  | Action.like => "like"
  | Action.dislike => "dislike"
  | Action.unlike => "unlike"
  | Action.undislike => "undislike"

/-- The relation of one user to a post in the specification's table. -/
inductive Standing where
  | none | liked | disliked
  deriving DecidableEq, Repr

/-- The standing of a user in a reaction state. -/
def standingOf (s : ReactionState) (u : String) : Standing :=
  if u ∈ s.userLiked then Standing.liked
  else if u ∈ s.userDisliked then Standing.disliked
  else Standing.none

/-- One row of the specification's table: the new standing and the change
of the two counters. -/
structure TableRow where
  newStanding : Standing
  likesDelta : Int
  dislikesDelta : Int
  deriving DecidableEq, Repr

/-- The transition table of the specification, written from its rows; a row
marked no-op keeps the standing. -/
def specTransition : Standing → Action → TableRow
  | Standing.none, Action.like => ⟨Standing.liked, 1, 0⟩
  | Standing.disliked, Action.like => ⟨Standing.liked, 1, -1⟩
  | Standing.liked, Action.like => ⟨Standing.liked, 0, 0⟩
  | Standing.none, Action.dislike => ⟨Standing.disliked, 0, 1⟩
  | Standing.liked, Action.dislike => ⟨Standing.disliked, -1, 1⟩
  | Standing.disliked, Action.dislike => ⟨Standing.disliked, 0, 0⟩
  | Standing.liked, Action.unlike => ⟨Standing.none, -1, 0⟩
  | Standing.none, Action.unlike => ⟨Standing.none, 0, 0⟩
  | Standing.disliked, Action.unlike => ⟨Standing.disliked, 0, 0⟩
  | Standing.disliked, Action.undislike => ⟨Standing.none, 0, -1⟩
  | Standing.none, Action.undislike => ⟨Standing.none, 0, 0⟩
  | Standing.liked, Action.undislike => ⟨Standing.liked, 0, 0⟩

/-- The edge relation of the comment graph on ids: `b` is the id of a comment
of `cs` whose `parentId` equals the number `a` under the comparison `eq`
(`strictEq` for `===`, `looseEq` for `==`). -/
def ChildBy (eq : JSVal → JSVal → Bool) (cs : List Comment) (a b : Int) : Prop :=
  ∃ c ∈ cs, c.id = b ∧ eq c.parentId (JSVal.num a) = true

/-- The id `x` is reached from `root` by zero or more `parentId` hops. -/
def ReachBy (eq : JSVal → JSVal → Bool) (cs : List Comment) (root x : Int) : Prop :=
  Relation.ReflTransGen (ChildBy eq cs) root x

/-- No comment is, directly or transitively, its own ancestor. -/
def NoCycle (eq : JSVal → JSVal → Bool) (cs : List Comment) : Prop :=
  ∀ x, ¬ Relation.TransGen (ChildBy eq cs) x x

/-- There is a chain of exactly `n` hops from `a` down to `b`. -/
def HopsBy (eq : JSVal → JSVal → Bool) (cs : List Comment) : Nat → Int → Int → Prop
  | 0, a, b => a = b
  | n + 1, a, b => ∃ m, ChildBy eq cs a m ∧ HopsBy eq cs n m b

/-- Two comments that are each other's parent, a corrupted store. -/
def cyclicPair : List Comment :=
  [{ id := 1, postId := JSVal.num 7, parentId := JSVal.num 2, author := "ann", body := "x" },
   { id := 2, postId := JSVal.num 7, parentId := JSVal.num 1, author := "bob", body := "y" }]

/-- A thread of three comments, each the reply of the one before. -/
def chainOfThree : List Comment :=
  [{ id := 1, postId := JSVal.num 7, parentId := JSVal.null, author := "ann", body := "x" },
   { id := 2, postId := JSVal.num 7, parentId := JSVal.num 1, author := "bob", body := "y" },
   { id := 3, postId := JSVal.num 7, parentId := JSVal.num 2, author := "cat", body := "z" }]

/-- A comment and a reply whose `parentId` was stored as the text `"1"`. -/
def mixedPair : List Comment :=
  [{ id := 1, postId := JSVal.num 7, parentId := JSVal.null, author := "ann", body := "x" },
   { id := 2, postId := JSVal.num 7, parentId := JSVal.str "1", author := "bob", body := "y" }]

/-- The ids of all nodes of a forest in pre-order. -/
def forestIds (f : List CommentNode) : List Int :=
  (forestNodes f).map (fun n => n.comment.id)

/-- A reply whose parent is not in the store. -/
def orphanReply : List Comment :=
  [{ id := 2, postId := JSVal.num 7, parentId := JSVal.num 1, author := "bob", body := "y" }]

/-- No comment reached from `root` is, directly or transitively, its own
ancestor. -/
def NoCycleBelow (eq : JSVal → JSVal → Bool) (cs : List Comment) (root : Int) : Prop :=
  ∀ z, ReachBy eq cs root z → ¬ Relation.TransGen (ChildBy eq cs) z z

/-! ## The reaction toggler -/

theorem length_erase_int (l : List String) (u : String) (h : u ∈ l) :
    ((l.erase u).length : Int) = (l.length : Int) - 1 := by
  have h1 := List.length_erase_of_mem h
  have h2 : 0 < l.length := List.length_pos_of_mem h
  omega

theorem likeBranch_liked (s : ReactionState) (u : String) (h1 : u ∈ s.userLiked) :
    likeBranch s u = { post := s, saved := false, status := 200,
                       message := some "Bạn đã like bài viết này!" } := by
  simp [likeBranch, h1]

theorem likeBranch_disliked (s : ReactionState) (u : String) (h1 : u ∉ s.userLiked)
    (h2 : u ∈ s.userDisliked) :
    likeBranch s u =
      { post := { likes := s.likes + 1, dislikes := s.dislikes - 1,
                  userLiked := s.userLiked ++ [u], userDisliked := s.userDisliked.erase u },
        saved := true, status := 200, message := none } := by
  simp [likeBranch, h1, h2]

theorem likeBranch_fresh (s : ReactionState) (u : String) (h1 : u ∉ s.userLiked)
    (h2 : u ∉ s.userDisliked) :
    likeBranch s u =
      { post := { likes := s.likes + 1, dislikes := s.dislikes,
                  userLiked := s.userLiked ++ [u], userDisliked := s.userDisliked },
        saved := true, status := 200, message := none } := by
  simp [likeBranch, h1, h2]

theorem dislikeBranch_disliked (s : ReactionState) (u : String) (h1 : u ∈ s.userDisliked) :
    dislikeBranch s u = { post := s, saved := true, status := 200, message := none } := by
  simp [dislikeBranch, h1]

theorem dislikeBranch_liked (s : ReactionState) (u : String) (h1 : u ∉ s.userDisliked)
    (h2 : u ∈ s.userLiked) :
    dislikeBranch s u =
      { post := { likes := s.likes - 1, dislikes := s.dislikes + 1,
                  userLiked := s.userLiked.erase u, userDisliked := s.userDisliked ++ [u] },
        saved := true, status := 200, message := none } := by
  simp [dislikeBranch, h1, h2]

theorem dislikeBranch_fresh (s : ReactionState) (u : String) (h1 : u ∉ s.userDisliked)
    (h2 : u ∉ s.userLiked) :
    dislikeBranch s u =
      { post := { likes := s.likes, dislikes := s.dislikes + 1,
                  userLiked := s.userLiked, userDisliked := s.userDisliked ++ [u] },
        saved := true, status := 200, message := none } := by
  simp [dislikeBranch, h1, h2]

theorem unlikeBranch_liked (s : ReactionState) (u : String) (h1 : u ∈ s.userLiked) :
    unlikeBranch s u =
      { post := { likes := s.likes - 1, dislikes := s.dislikes,
                  userLiked := s.userLiked.erase u, userDisliked := s.userDisliked },
        saved := true, status := 200, message := none } := by
  simp [unlikeBranch, h1]

theorem unlikeBranch_other (s : ReactionState) (u : String) (h1 : u ∉ s.userLiked) :
    unlikeBranch s u = { post := s, saved := true, status := 200, message := none } := by
  simp [unlikeBranch, h1]

theorem undislikeBranch_disliked (s : ReactionState) (u : String) (h1 : u ∈ s.userDisliked) :
    undislikeBranch s u =
      { post := { likes := s.likes, dislikes := s.dislikes - 1,
                  userLiked := s.userLiked, userDisliked := s.userDisliked.erase u },
        saved := true, status := 200, message := none } := by
  simp [undislikeBranch, h1]

theorem undislikeBranch_other (s : ReactionState) (u : String) (h1 : u ∉ s.userDisliked) :
    undislikeBranch s u = { post := s, saved := true, status := 200, message := none } := by
  simp [undislikeBranch, h1]

theorem nodup_push (l : List String) (u : String) (hl : l.Nodup) (h : u ∉ l) :
    (l ++ [u]).Nodup :=
  List.Nodup.append hl (List.nodup_singleton u) (by simpa using h)

theorem likeBranch_inv (s : ReactionState) (u : String) (h : ReactionInv s) :
    ReactionInv (likeBranch s u).post := by
  obtain ⟨hl, hd, hx, hcl, hcd⟩ := h
  by_cases h1 : u ∈ s.userLiked
  · rw [likeBranch_liked s u h1]; exact ⟨hl, hd, hx, hcl, hcd⟩
  · by_cases h2 : u ∈ s.userDisliked
    · rw [likeBranch_disliked s u h1 h2]
      refine ⟨nodup_push _ _ hl h1, hd.erase u, ?_, ?_, ?_⟩
      · intro v hv hv2
        simp only at hv hv2
        rw [hd.mem_erase_iff] at hv2
        rcases List.mem_append.mp hv with hv | hv
        · exact hx v hv hv2.2
        · exact hv2.1 (by simpa using hv)
      · simp [hcl]
      · simp only [hcd]; rw [length_erase_int _ _ h2]
    · rw [likeBranch_fresh s u h1 h2]
      refine ⟨nodup_push _ _ hl h1, hd, ?_, ?_, hcd⟩
      · intro v hv hv2
        simp only at hv hv2
        rcases List.mem_append.mp hv with hv | hv
        · exact hx v hv hv2
        · have : v = u := by simpa using hv
          exact h2 (this ▸ hv2)
      · simp [hcl]

theorem dislikeBranch_inv (s : ReactionState) (u : String) (h : ReactionInv s) :
    ReactionInv (dislikeBranch s u).post := by
  obtain ⟨hl, hd, hx, hcl, hcd⟩ := h
  by_cases h1 : u ∈ s.userDisliked
  · rw [dislikeBranch_disliked s u h1]; exact ⟨hl, hd, hx, hcl, hcd⟩
  · by_cases h2 : u ∈ s.userLiked
    · rw [dislikeBranch_liked s u h1 h2]
      refine ⟨hl.erase u, nodup_push _ _ hd h1, ?_, ?_, ?_⟩
      · intro v hv hv2
        simp only at hv hv2
        rw [hl.mem_erase_iff] at hv
        rcases List.mem_append.mp hv2 with hv2 | hv2
        · exact hx v hv.2 hv2
        · exact hv.1 (by simpa using hv2)
      · simp only [hcl]; rw [length_erase_int _ _ h2]
      · simp [hcd]
    · rw [dislikeBranch_fresh s u h1 h2]
      refine ⟨hl, nodup_push _ _ hd h1, ?_, hcl, ?_⟩
      · intro v hv hv2
        simp only at hv hv2
        rcases List.mem_append.mp hv2 with hv2 | hv2
        · exact hx v hv hv2
        · have : v = u := by simpa using hv2
          exact h2 (this ▸ hv)
      · simp [hcd]

theorem unlikeBranch_inv (s : ReactionState) (u : String) (h : ReactionInv s) :
    ReactionInv (unlikeBranch s u).post := by
  obtain ⟨hl, hd, hx, hcl, hcd⟩ := h
  by_cases h1 : u ∈ s.userLiked
  · rw [unlikeBranch_liked s u h1]
    refine ⟨hl.erase u, hd, ?_, ?_, hcd⟩
    · intro v hv hv2
      simp only at hv hv2
      exact hx v (List.mem_of_mem_erase hv) hv2
    · simp only [hcl]; rw [length_erase_int _ _ h1]
  · rw [unlikeBranch_other s u h1]; exact ⟨hl, hd, hx, hcl, hcd⟩

theorem undislikeBranch_inv (s : ReactionState) (u : String) (h : ReactionInv s) :
    ReactionInv (undislikeBranch s u).post := by
  obtain ⟨hl, hd, hx, hcl, hcd⟩ := h
  by_cases h1 : u ∈ s.userDisliked
  · rw [undislikeBranch_disliked s u h1]
    refine ⟨hl, hd.erase u, ?_, hcl, ?_⟩
    · intro v hv hv2
      simp only at hv hv2
      exact hx v hv (List.mem_of_mem_erase hv2)
    · simp only [hcd]; rw [length_erase_int _ _ h1]
  · rw [undislikeBranch_other s u h1]; exact ⟨hl, hd, hx, hcl, hcd⟩

theorem applyReaction_inv (s : ReactionState) (u a : String) (h : ReactionInv s) :
    ReactionInv (applyReaction s u a) := by
  unfold applyReaction likeHandler
  split
  · exact likeBranch_inv s u h
  · split
    · exact dislikeBranch_inv s u h
    · split
      · exact unlikeBranch_inv s u h
      · split
        · exact undislikeBranch_inv s u h
        · exact h

theorem applyReactions_inv (steps : List (String × String)) (s : ReactionState)
    (h : ReactionInv s) : ReactionInv (applyReactions s steps) := by
  induction steps generalizing s with
  | nil => exact h
  | cons step rest ih =>
    exact ih (applyReaction s step.1 step.2) (applyReaction_inv s step.1 step.2 h)

theorem emptyReactions_inv : ReactionInv emptyReactions := by
  simp [ReactionInv, emptyReactions]

theorem likeHandler_like (s : ReactionState) (u : String) :
    likeHandler s u "like" = likeBranch s u := rfl

theorem likeHandler_dislike (s : ReactionState) (u : String) :
    likeHandler s u "dislike" = dislikeBranch s u := rfl

theorem likeHandler_unlike (s : ReactionState) (u : String) :
    likeHandler s u "unlike" = unlikeBranch s u := rfl

theorem likeHandler_undislike (s : ReactionState) (u : String) :
    likeHandler s u "undislike" = undislikeBranch s u := rfl

theorem mem_push_ne (l : List String) (u v : String) (h : v ≠ u) :
    v ∈ l ++ [u] ↔ v ∈ l := by
  simp [h]

theorem mem_erase_ne (l : List String) (u v : String) (h : v ≠ u) :
    v ∈ l.erase u ↔ v ∈ l :=
  List.mem_erase_of_ne h

theorem applyReaction_table (s : ReactionState) (u : String) (a : Action)
    (h : ReactionInv s) :
    (u ∈ (applyReaction s u a.name).userLiked ↔
      (specTransition (standingOf s u) a).newStanding = Standing.liked) ∧
    (u ∈ (applyReaction s u a.name).userDisliked ↔
      (specTransition (standingOf s u) a).newStanding = Standing.disliked) ∧
    (applyReaction s u a.name).likes =
      s.likes + (specTransition (standingOf s u) a).likesDelta ∧
    (applyReaction s u a.name).dislikes =
      s.dislikes + (specTransition (standingOf s u) a).dislikesDelta ∧
    (∀ v, v ≠ u →
      ((v ∈ (applyReaction s u a.name).userLiked ↔ v ∈ s.userLiked) ∧
       (v ∈ (applyReaction s u a.name).userDisliked ↔ v ∈ s.userDisliked))) ∧
    (specTransition (standingOf s u) a = ⟨standingOf s u, 0, 0⟩ →
      applyReaction s u a.name = s) ∧
    ReactionInv (applyReaction s u a.name) := by
  refine ⟨?_, ?_, ?_, ?_, ?_, ?_, applyReaction_inv s u a.name h⟩
  all_goals
    obtain ⟨hl, hd, hx, hcl, hcd⟩ := h
    by_cases h1 : u ∈ s.userLiked
    · have h2 : u ∉ s.userDisliked := hx u h1
      cases a <;>
        simp [applyReaction, Action.name, likeHandler_like, likeHandler_dislike,
          likeHandler_unlike, likeHandler_undislike, likeBranch_liked, dislikeBranch_liked,
          unlikeBranch_liked, undislikeBranch_other, standingOf, specTransition, h1, h2,
          hl.mem_erase_iff, hd.mem_erase_iff, sub_eq_add_neg] <;>
        intro v hv <;> simp [hv, mem_erase_ne]
    · by_cases h2 : u ∈ s.userDisliked
      · cases a <;>
          simp [applyReaction, Action.name, likeHandler_like, likeHandler_dislike,
            likeHandler_unlike, likeHandler_undislike, likeBranch_disliked,
            dislikeBranch_disliked, unlikeBranch_other, undislikeBranch_disliked,
            standingOf, specTransition, h1, h2,
            hl.mem_erase_iff, hd.mem_erase_iff, sub_eq_add_neg] <;>
          intro v hv <;> simp [hv, mem_erase_ne]
      · cases a <;>
          simp [applyReaction, Action.name, likeHandler_like, likeHandler_dislike,
            likeHandler_unlike, likeHandler_undislike, likeBranch_fresh,
            dislikeBranch_fresh, unlikeBranch_other, undislikeBranch_other,
            standingOf, specTransition, h1, h2,
            hl.mem_erase_iff, hd.mem_erase_iff, sub_eq_add_neg] <;>
          intro v hv <;> simp [hv, mem_erase_ne]

theorem applyReaction_twice (s : ReactionState) (u : String) (a : Action)
    (h : ReactionInv s) :
    applyReaction (applyReaction s u a.name) u a.name = applyReaction s u a.name := by
  obtain ⟨t1, t2, -, -, -, -, -⟩ := applyReaction_table s u a h
  cases a
  · have hm : u ∈ (applyReaction s u "like").userLiked := by
      apply t1.mpr
      cases standingOf s u <;> rfl
    show (likeHandler (applyReaction s u "like") u "like").post = _
    rw [likeHandler_like, likeBranch_liked _ _ hm]; rfl
  · have hm : u ∈ (applyReaction s u "dislike").userDisliked := by
      apply t2.mpr
      cases standingOf s u <;> rfl
    show (likeHandler (applyReaction s u "dislike") u "dislike").post = _
    rw [likeHandler_dislike, dislikeBranch_disliked _ _ hm]; rfl
  · have hm : u ∉ (applyReaction s u "unlike").userLiked := by
      intro hc
      have := t1.mp hc
      revert this
      cases standingOf s u <;> simp [specTransition]
    show (likeHandler (applyReaction s u "unlike") u "unlike").post = _
    rw [likeHandler_unlike, unlikeBranch_other _ _ hm]; rfl
  · have hm : u ∉ (applyReaction s u "undislike").userDisliked := by
      intro hc
      have := t2.mp hc
      revert this
      cases standingOf s u <;> simp [specTransition]
    show (likeHandler (applyReaction s u "undislike") u "undislike").post = _
    rw [likeHandler_undislike, undislikeBranch_other _ _ hm]; rfl

theorem second_like_reported (s : ReactionState) (u : String) (h : ReactionInv s) :
    likeHandler (applyReaction s u "like") u "like" =
      { post := applyReaction s u "like", saved := false, status := 200,
        message := some "Bạn đã like bài viết này!" } := by
  obtain ⟨t1, -, -, -, -, -, -⟩ := applyReaction_table s u Action.like h
  have hm : u ∈ (applyReaction s u "like").userLiked := by
    apply t1.mpr
    cases standingOf s u <;> rfl
  rw [likeHandler_like, likeBranch_liked _ _ hm]

theorem likeHandler_unrecognized (s : ReactionState) (u a : String)
    (h1 : a ≠ "like") (h2 : a ≠ "dislike") (h3 : a ≠ "unlike") (h4 : a ≠ "undislike") :
    likeHandler s u a = { post := s, saved := true, status := 200, message := none } := by
  simp [likeHandler, h1, h2, h3, h4]

/-! ## Paths in the comment graph -/

theorem childBy_mono {eq : JSVal → JSVal → Bool} {cs ds : List Comment}
    (hsub : ∀ c ∈ cs, c ∈ ds) {a b : Int} (h : ChildBy eq cs a b) : ChildBy eq ds a b := by
  obtain ⟨c, hc, h1, h2⟩ := h
  exact ⟨c, hsub c hc, h1, h2⟩

theorem hopsBy_mono {eq : JSVal → JSVal → Bool} {cs ds : List Comment}
    (hsub : ∀ c ∈ cs, c ∈ ds) : ∀ (n : Nat) (a b : Int), HopsBy eq cs n a b → HopsBy eq ds n a b
  | 0, _, _, h => h
  | n + 1, _, _, ⟨m, h1, h2⟩ => ⟨m, childBy_mono hsub h1, hopsBy_mono hsub n m _ h2⟩

theorem noCycle_mono {eq : JSVal → JSVal → Bool} {cs ds : List Comment}
    (hsub : ∀ c ∈ cs, c ∈ ds) (h : NoCycle eq ds) : NoCycle eq cs := by
  intro x hx
  exact h x (Relation.TransGen.mono (fun a b hab => childBy_mono hsub hab) hx)

theorem hopsBy_reach {eq : JSVal → JSVal → Bool} {cs : List Comment} :
    ∀ (n : Nat) (a b : Int), HopsBy eq cs n a b → ReachBy eq cs a b
  | 0, _, _, h => h ▸ Relation.ReflTransGen.refl
  | n + 1, _, _, ⟨_, h1, h2⟩ => Relation.ReflTransGen.head h1 (hopsBy_reach n _ _ h2)

/-- Below `b`, a chain in an acyclic graph never uses a comment with id `b`. -/
theorem hopsBy_avoid {eq : JSVal → JSVal → Bool} {cs : List Comment} (hac : NoCycle eq cs)
    (b : Int) : ∀ (n : Nat) (x y : Int), ReachBy eq cs b x → HopsBy eq cs n x y →
      HopsBy eq (cs.filter (fun c => decide (c.id ≠ b))) n x y
  | 0, _, _, _, h => h
  | n + 1, x, y, hbx, ⟨m, h1, h2⟩ => by
    have hbm : ReachBy eq cs b m := Relation.ReflTransGen.tail hbx h1
    refine ⟨m, ?_, hopsBy_avoid hac b n m y hbm h2⟩
    obtain ⟨c, hc, hid, hpar⟩ := h1
    refine ⟨c, ?_, hid, hpar⟩
    rw [List.mem_filter]
    refine ⟨hc, ?_⟩
    simp only [decide_eq_true_eq]
    intro hcb
    have hmb : m = b := by rw [← hid, hcb]
    subst hmb
    exact hac m (Relation.TransGen.tail' hbx ⟨c, hc, hid, hpar⟩)

/-- In an acyclic graph a chain that starts at the id of a comment has fewer
hops than there are comments. -/
theorem hopsBy_lt_length {eq : JSVal → JSVal → Bool} :
    ∀ (k : Nat) (cs : List Comment), cs.length = k → NoCycle eq cs →
      ∀ (n : Nat) (a b : Int), (∃ c ∈ cs, c.id = a) → HopsBy eq cs n a b → n < cs.length := by
  intro k
  induction k using Nat.strong_induction_on with
  | _ k ih =>
    intro cs hlen hac n a b ha hp
    obtain ⟨c0, hc0, hc0a⟩ := ha
    have hpos : 0 < cs.length := List.length_pos_of_mem hc0
    cases n with
    | zero => exact hpos
    | succ n =>
      have hp2 := hopsBy_avoid hac a (n + 1) a b Relation.ReflTransGen.refl hp
      obtain ⟨m, h1, h2⟩ := hp2
      have hlt : (cs.filter (fun c => decide (c.id ≠ a))).length < cs.length := by
        apply List.length_filter_lt_length_iff_exists.mpr
        exact ⟨c0, hc0, by simp [hc0a]⟩
      have hsub : ∀ c ∈ cs.filter (fun c => decide (c.id ≠ a)), c ∈ cs :=
        fun c hc => (List.mem_filter.mp hc).1
      have hm : ∃ c ∈ cs.filter (fun c => decide (c.id ≠ a)), c.id = m := by
        obtain ⟨c, hc, hid, -⟩ := h1
        exact ⟨c, hc, hid⟩
      have := ih _ (hlen ▸ hlt) (cs.filter (fun c => decide (c.id ≠ a))) rfl
        (noCycle_mono hsub hac) n m b hm h2
      omega

theorem hopsBy_le_length {eq : JSVal → JSVal → Bool} {cs : List Comment} (hac : NoCycle eq cs)
    (n : Nat) (a b : Int) (hp : HopsBy eq cs n a b) : n ≤ cs.length := by
  cases n with
  | zero => exact Nat.zero_le _
  | succ n =>
    obtain ⟨m, h1, h2⟩ := hp
    have hm : ∃ c ∈ cs, c.id = m := by
      obtain ⟨c, hc, hid, -⟩ := h1
      exact ⟨c, hc, hid⟩
    have := hopsBy_lt_length cs.length cs rfl hac n m b hm h2
    omega

/-! ## Cascading deletion -/

section Deletion
open Classical

/-- Removing a set of ids closed under children does not change what is
reached outside of it. -/
theorem reachBy_restrict {eq : JSVal → JSVal → Bool} {cs : List Comment} (q : Int → Bool)
    (hq : ∀ x y, q x = true → ChildBy eq cs x y → q y = true) {a x : Int}
    (h : ReachBy eq cs a x) (hx : q x = false) :
    ReachBy eq (cs.filter (fun c => !q c.id)) a x := by
  induction h with
  | refl => exact Relation.ReflTransGen.refl
  | tail hay hyx ih =>
    rename_i y z
    have hy : q y = false := by
      cases hqy : q y with
      | false => rfl
      | true => rw [hq y z hqy hyx] at hx; exact absurd hx (by simp)
    refine Relation.ReflTransGen.tail (ih hy) ?_
    obtain ⟨c, hc, hid, hpar⟩ := hyx
    refine ⟨c, ?_, hid, hpar⟩
    rw [List.mem_filter]
    exact ⟨hc, by simp [hid, hx]⟩

theorem reachBy_mono {eq : JSVal → JSVal → Bool} {cs ds : List Comment}
    (hsub : ∀ c ∈ cs, c ∈ ds) {a x : Int} (h : ReachBy eq cs a x) : ReachBy eq ds a x :=
  Relation.ReflTransGen.mono (fun _ _ hab => childBy_mono hsub hab) h

/-- The loop of `deleteWithChildren`, given that every recursive call that
returns removes exactly what is reached from its argument. -/
theorem deleteLoop_spec (cs : List Comment)
    (rec : List Comment → Int → Option (List Comment))
    (hrec : ∀ s id r, rec s id = some r →
      r = s.filter (fun c => decide (¬ ReachBy strictEq s id c.id))) :
    ∀ (ks s : List Comment) (q : Int → Bool) (r : List Comment),
      (∀ x y, q x = true → ChildBy strictEq cs x y → q y = true) →
      s = cs.filter (fun c => !q c.id) →
      deleteLoop rec ks s = some r →
      r = cs.filter (fun c =>
        decide (¬ (q c.id = true ∨ ∃ k ∈ ks, ReachBy strictEq cs k.id c.id))) := by
  intro ks
  induction ks with
  | nil =>
    intro s q r _ hs h
    simp only [deleteLoop, Option.some.injEq] at h
    rw [← h, hs]
    apply List.filter_congr
    intro c _
    cases q c.id <;> simp
  | cons k ks ih =>
    intro s q r hq hs h
    simp only [deleteLoop] at h
    cases hk : rec s k.id with
    | none => rw [hk] at h; exact absurd h (by simp)
    | some s1 =>
      rw [hk] at h
      have hs1 := hrec s k.id s1 hk
      have hsub : ∀ c ∈ s, c ∈ cs := fun c hc => by
        rw [hs] at hc; exact (List.mem_filter.mp hc).1
      have key := ih s1 (fun x => q x || decide (ReachBy strictEq cs k.id x)) r ?_ ?_ h
      · rw [key]
        apply List.filter_congr
        intro c _
        rw [Bool.eq_iff_iff]
        simp only [decide_eq_true_eq, Bool.or_eq_true, List.mem_cons, exists_eq_or_imp,
          not_or, and_assoc]
      · intro x y hx hxy
        simp only [Bool.or_eq_true, decide_eq_true_eq] at hx ⊢
        rcases hx with hx | hx
        · exact Or.inl (hq x y hx hxy)
        · exact Or.inr (Relation.ReflTransGen.tail hx hxy)
      · rw [hs1, hs, List.filter_filter]
        apply List.filter_congr
        intro c hc
        rw [Bool.eq_iff_iff]
        simp only [Bool.and_eq_true, decide_eq_true_eq, Bool.not_eq_true', Bool.or_eq_false_iff,
          decide_eq_false_iff_not]
        constructor
        · rintro ⟨h1, h2⟩
          refine ⟨h2, fun h3 => h1 ?_⟩
          exact reachBy_restrict q hq h3 h2
        · rintro ⟨h1, h2⟩
          refine ⟨fun h3 => h2 ?_, h1⟩
          exact reachBy_mono (fun d hd => (List.mem_filter.mp hd).1) h3

/-- Whenever `deleteWithChildren` returns, it has removed exactly the comments
whose id is reached from its argument. -/
theorem deleteWithChildren_spec :
    ∀ (fuel : Nat) (s : List Comment) (id : Int) (r : List Comment),
      deleteWithChildren fuel s id = some r →
      r = s.filter (fun c => decide (¬ ReachBy strictEq s id c.id)) := by
  intro fuel
  induction fuel with
  | zero => intro s id r h; simp [deleteWithChildren] at h
  | succ fuel ih =>
    intro s id r h
    simp only [deleteWithChildren] at h
    cases hl : deleteLoop (deleteWithChildren fuel)
        (s.filter (fun c => strictEq c.parentId (JSVal.num id))) s with
    | none => rw [hl] at h; exact absurd h (by simp)
    | some s1 =>
      rw [hl] at h
      simp only [Option.some.injEq] at h
      have key := deleteLoop_spec s (deleteWithChildren fuel) ih _ s (fun _ => false) s1
        (fun x y hx _ => by simp at hx) (by simp) hl
      rw [← h, key, List.filter_filter]
      apply List.filter_congr
      intro c _
      rw [Bool.eq_iff_iff]
      simp only [Bool.and_eq_true, decide_eq_true_eq, Bool.false_eq_true, false_or]
      unfold ReachBy
      rw [Relation.ReflTransGen.cases_head_iff]
      constructor
      · rintro ⟨h1, h2⟩ h3
        rcases h3 with h3 | ⟨m, ⟨k, hk, hkid, hkpar⟩, hm⟩
        · exact h1 h3.symm
        · exact h2 ⟨k, List.mem_filter.mpr ⟨hk, hkpar⟩, hkid ▸ hm⟩
      · intro h3
        refine ⟨fun h1 => h3 (Or.inl h1.symm), ?_⟩
        rintro ⟨k, hk, hkr⟩
        rw [List.mem_filter] at hk
        exact h3 (Or.inr ⟨k.id, ⟨k, hk.1, rfl, hk.2⟩, hkr⟩)

end Deletion

/-- The recursion returns when no chain of `fuel` hops starts at its argument. -/
theorem deleteWithChildren_returns :
    ∀ (fuel : Nat) (s : List Comment) (id : Int),
      (∀ b, ¬ HopsBy strictEq s fuel id b) → ∃ r, deleteWithChildren fuel s id = some r := by
  intro fuel
  induction fuel with
  | zero => intro s id h; exact absurd rfl (h id)
  | succ fuel ih =>
    intro s id h
    have loop : ∀ (ks t : List Comment), (∀ c ∈ t, c ∈ s) →
        (∀ k ∈ ks, ∀ b, ¬ HopsBy strictEq s fuel k.id b) →
        ∃ r, deleteLoop (deleteWithChildren fuel) ks t = some r := by
      intro ks
      induction ks with
      | nil => intro t _ _; exact ⟨t, rfl⟩
      | cons k ks ihk =>
        intro t ht hks
        obtain ⟨t1, ht1⟩ := ih t k.id (fun b hb =>
          hks k (List.mem_cons_self k ks) b (hopsBy_mono ht fuel k.id b hb))
        have hsub : ∀ c ∈ t1, c ∈ s := by
          intro c hc
          rw [deleteWithChildren_spec fuel t k.id t1 ht1] at hc
          exact ht c (List.mem_filter.mp hc).1
        obtain ⟨r, hr⟩ := ihk t1 hsub (fun k1 hk1 => hks k1 (List.mem_cons_of_mem k hk1))
        exact ⟨r, by simp only [deleteLoop, ht1, hr]⟩
    obtain ⟨r, hr⟩ := loop (s.filter (fun c => strictEq c.parentId (JSVal.num id))) s
      (fun c hc => hc) (by
        intro k hk b hb
        rw [List.mem_filter] at hk
        exact h b ⟨k.id, ⟨k, hk.1, rfl, hk.2⟩, hb⟩)
    exact ⟨r.filter (fun c => decide (c.id ≠ id)), by simp only [deleteWithChildren, hr]⟩

/-- On an acyclic collection the recursion returns as soon as the depth bound
exceeds the number of comments. -/
theorem deleteWithChildren_returns_of_noCycle (cs : List Comment) (id : Int) (fuel : Nat)
    (hac : NoCycle strictEq cs) (hfuel : cs.length < fuel) :
    ∃ r, deleteWithChildren fuel cs id = some r := by
  apply deleteWithChildren_returns
  intro b hb
  have := hopsBy_le_length hac fuel id b hb
  omega

/-- The same with a tight bound when the argument is the id of a comment. -/
theorem deleteWithChildren_returns_of_mem (cs : List Comment) (id : Int) (fuel : Nat)
    (hac : NoCycle strictEq cs) (hid : ∃ c ∈ cs, c.id = id) (hfuel : cs.length ≤ fuel) :
    ∃ r, deleteWithChildren fuel cs id = some r := by
  apply deleteWithChildren_returns
  intro b hb
  have := hopsBy_lt_length cs.length cs rfl hac fuel id b hid hb
  omega

/-- The handler on an acyclic collection and an existing id. -/
theorem deleteCommentHandler_ok (cs : List Comment) (rootId : Int) (fuel : Nat)
    (hac : NoCycle strictEq cs) (hid : ∃ c ∈ cs, c.id = rootId) (hfuel : cs.length ≤ fuel)
    (p : Comment → Bool) (hp : ∀ c ∈ cs, (p c = true ↔ ¬ ReachBy strictEq cs rootId c.id)) :
    deleteCommentHandler fuel cs rootId =
      { status := 204, error := none, written := some (cs.filter p) } := by
  obtain ⟨r, hr⟩ := deleteWithChildren_returns_of_mem cs rootId fuel hac hid hfuel
  have hspec := deleteWithChildren_spec fuel cs rootId r hr
  have hrp : r = cs.filter p := by
    rw [hspec]
    apply List.filter_congr
    intro c hc
    rw [Bool.eq_iff_iff, hp c hc]
    simp
  obtain ⟨c0, hc0, hc0id⟩ := hid
  have hfind : ∃ c, cs.find? (fun c => decide (c.id = rootId)) = some c := by
    cases hf : cs.find? (fun c => decide (c.id = rootId)) with
    | some c => exact ⟨c, rfl⟩
    | none =>
      rw [List.find?_eq_none] at hf
      exact absurd (by simpa using hc0id) (hf c0 hc0)
  obtain ⟨c, hc⟩ := hfind
  simp only [deleteCommentHandler, hc, hr, hrp]

theorem deleteCommentHandler_notFound (cs : List Comment) (rootId : Int) (fuel : Nat)
    (hid : ∀ c ∈ cs, c.id ≠ rootId) :
    deleteCommentHandler fuel cs rootId =
      { status := 404, error := some "Comment not found", written := none } := by
  have hf : cs.find? (fun c => decide (c.id = rootId)) = none := by
    rw [List.find?_eq_none]
    intro c hc
    simpa using hid c hc
  simp only [deleteCommentHandler, hf]

/-! ## The example collections -/

theorem cyclicPair_diverges (fuel : Nat) :
    deleteWithChildren fuel cyclicPair 1 = none ∧ deleteWithChildren fuel cyclicPair 2 = none := by
  induction fuel with
  | zero => exact ⟨rfl, rfl⟩
  | succ fuel ih =>
    constructor
    · have hf : cyclicPair.filter (fun c => strictEq c.parentId (JSVal.num 1)) =
          [{ id := 2, postId := JSVal.num 7, parentId := JSVal.num 1, author := "bob",
             body := "y" }] := by decide
      simp only [deleteWithChildren, hf, deleteLoop, ih.2]
    · have hf : cyclicPair.filter (fun c => strictEq c.parentId (JSVal.num 2)) =
          [{ id := 1, postId := JSVal.num 7, parentId := JSVal.num 2, author := "ann",
             body := "x" }] := by decide
      simp only [deleteWithChildren, hf, deleteLoop, ih.1]

theorem noCycle_of_rank {eq : JSVal → JSVal → Bool} {cs : List Comment} (rank : Int → Int)
    (h : ∀ a b, ChildBy eq cs a b → rank a < rank b) : NoCycle eq cs := by
  have key : ∀ a b, Relation.TransGen (ChildBy eq cs) a b → rank a < rank b := by
    intro a b hab
    induction hab with
    | single h1 => exact h _ _ h1
    | tail _ h2 ih => exact lt_trans ih (h _ _ h2)
  intro x hx
  exact lt_irrefl _ (key x x hx)

theorem chainOfThree_noCycle (eq : JSVal → JSVal → Bool)
    (heq : ∀ v a, eq v (JSVal.num a) = true → looseEq v (JSVal.num a) = true) :
    NoCycle eq chainOfThree := by
  apply noCycle_of_rank id
  rintro a b ⟨c, hc, hid, hpar⟩
  have hpar2 := heq _ _ hpar
  simp only [chainOfThree, List.mem_cons, List.mem_singleton, List.not_mem_nil, or_false] at hc
  rcases hc with rfl | rfl | rfl
  · simp [looseEq] at hpar2
  · simp only [looseEq, decide_eq_true_eq] at hpar2
    subst hid hpar2
    decide
  · simp only [looseEq, decide_eq_true_eq] at hpar2
    subst hid hpar2
    decide

/-! ## The tree builder -/

theorem collectNodes_map {α : Type} (g : α → Option CommentNode) :
    ∀ (L : List α) (f : List CommentNode), collectNodes (L.map g) = some f →
      List.Forall₂ (fun c n => g c = some n) L f := by
  intro L
  induction L with
  | nil =>
    intro f h
    simp only [List.map_nil, collectNodes, Option.some.injEq] at h
    subst h
    exact List.Forall₂.nil
  | cons c L ih =>
    intro f h
    simp only [List.map_cons] at h
    cases hg : g c with
    | none => rw [hg] at h; simp [collectNodes] at h
    | some n =>
      rw [hg] at h
      simp only [collectNodes] at h
      cases hr : collectNodes (L.map g) with
      | none => rw [hr] at h; simp at h
      | some ns =>
        rw [hr] at h
        simp only [Option.some.injEq] at h
        subst h
        exact List.Forall₂.cons hg (ih ns hr)

theorem collectNodes_returns {α : Type} (g : α → Option CommentNode) :
    ∀ (L : List α), (∀ c ∈ L, ∃ n, g c = some n) → ∃ f, collectNodes (L.map g) = some f := by
  intro L
  induction L with
  | nil => intro _; exact ⟨[], rfl⟩
  | cons c L ih =>
    intro h
    obtain ⟨n, hn⟩ := h c (List.mem_cons_self c L)
    obtain ⟨ns, hns⟩ := ih (fun d hd => h d (List.mem_cons_of_mem c hd))
    exact ⟨n :: ns, by simp only [List.map_cons, hn, collectNodes, hns]⟩

theorem isReplyTo_num (a : Int) (c : Comment) :
    isReplyTo (JSVal.num a) c = looseEq c.parentId (JSVal.num a) := by
  simp [isReplyTo]

theorem buildCommentTree_succ (P : List Comment) (fuel : Nat) (parentId : JSVal) :
    buildCommentTree P (fuel + 1) parentId =
      collectNodes ((P.filter (isReplyTo parentId)).map (fun comment =>
        (buildCommentTree P fuel (JSVal.num comment.id)).map
          (fun replies => CommentNode.mk comment replies))) := rfl

/-- What one level of the builder yields: the nodes pair up, in order, with the
filtered comments, and each node holds the result of the recursive call. -/
theorem buildCommentTree_level (P : List Comment) (fuel : Nat) (parentId : JSVal)
    (f : List CommentNode) (h : buildCommentTree P (fuel + 1) parentId = some f) :
    List.Forall₂ (fun c n => n.comment = c ∧
        buildCommentTree P fuel (JSVal.num c.id) = some n.replies)
      (P.filter (isReplyTo parentId)) f := by
  rw [buildCommentTree_succ] at h
  refine (collectNodes_map _ _ f h).imp ?_
  intro c n hcn
  cases hb : buildCommentTree P fuel (JSVal.num c.id) with
  | none => rw [hb] at hcn; simp at hcn
  | some r =>
    rw [hb] at hcn
    simp only [Option.map_some', Option.some.injEq] at hcn
    subst hcn
    exact ⟨rfl, rfl⟩

theorem mem_forestNodes (f : List CommentNode) (m : CommentNode) :
    m ∈ forestNodes f ↔ ∃ n ∈ f, m = n ∨ m ∈ forestNodes n.replies := by
  induction f with
  | nil => simp [forestNodes]
  | cons n ns ih =>
    cases n with
    | mk c r =>
      simp only [forestNodes, CommentNode.nodes, List.mem_append, List.mem_cons, ih,
        exists_eq_or_imp, CommentNode.replies]

theorem forall₂_mem_right {α β : Type} {R : α → β → Prop} {L : List α} {f : List β}
    (h : List.Forall₂ R L f) : ∀ n ∈ f, ∃ c ∈ L, R c n := by
  induction h with
  | nil => intro n hn; simp at hn
  | cons h1 _ ih =>
    intro n hn
    rcases List.mem_cons.mp hn with rfl | hn
    · exact ⟨_, List.mem_cons_self _ _, h1⟩
    · obtain ⟨c, hc, hr⟩ := ih n hn
      exact ⟨c, List.mem_cons_of_mem _ hc, hr⟩

theorem forall₂_mem_left {α β : Type} {R : α → β → Prop} {L : List α} {f : List β}
    (h : List.Forall₂ R L f) : ∀ c ∈ L, ∃ n ∈ f, R c n := by
  induction h with
  | nil => intro n hn; simp at hn
  | cons h1 _ ih =>
    intro c hc
    rcases List.mem_cons.mp hc with rfl | hc
    · exact ⟨_, List.mem_cons_self _ _, h1⟩
    · obtain ⟨n, hn, hr⟩ := ih c hc
      exact ⟨n, List.mem_cons_of_mem _ hn, hr⟩

theorem forall₂_map_comment (P : List Comment) (f : List CommentNode)
    (Q : Comment → CommentNode → Prop)
    (h : List.Forall₂ (fun c n => n.comment = c ∧ Q c n) P f) :
    f.map CommentNode.comment = P := by
  induction h with
  | nil => rfl
  | cons h1 _ ih => simp only [List.map_cons, h1.1, ih]

/-- Every level of the built forest is the filter of the input by the parent. -/
theorem buildCommentTree_nested (P : List Comment) :
    ∀ (fuel : Nat) (parentId : JSVal) (f : List CommentNode),
      buildCommentTree P fuel parentId = some f →
      f.map CommentNode.comment = P.filter (isReplyTo parentId) ∧
      ∀ n ∈ forestNodes f,
        n.replies.map CommentNode.comment = P.filter (isReplyTo (JSVal.num n.comment.id)) := by
  intro fuel
  induction fuel with
  | zero => intro parentId f h; simp [buildCommentTree] at h
  | succ fuel ih =>
    intro parentId f h
    have hl := buildCommentTree_level P fuel parentId f h
    refine ⟨forall₂_map_comment _ _ _ hl, ?_⟩
    intro m hm
    rw [mem_forestNodes] at hm
    obtain ⟨n, hn, hmn⟩ := hm
    obtain ⟨c, _, hcn, hrec⟩ := forall₂_mem_right hl n hn
    rcases hmn with rfl | hmn
    · rw [hcn]
      exact (ih _ _ hrec).1
    · exact (ih _ _ hrec).2 m hmn

/-- The builder returns when no chain of `fuel` hops starts at its argument. -/
theorem buildCommentTree_returns (P : List Comment) :
    ∀ (fuel : Nat) (a : Int), (∀ b, ¬ HopsBy looseEq P fuel a b) →
      ∃ f, buildCommentTree P fuel (JSVal.num a) = some f := by
  intro fuel
  induction fuel with
  | zero => intro a h; exact absurd rfl (h a)
  | succ fuel ih =>
    intro a h
    rw [buildCommentTree_succ]
    apply collectNodes_returns
    intro c hc
    rw [List.mem_filter, isReplyTo_num] at hc
    obtain ⟨r, hr⟩ := ih c.id (fun b hb => h b ⟨c.id, ⟨c, hc.1, rfl, hc.2⟩, hb⟩)
    exact ⟨CommentNode.mk c r, by rw [hr]; rfl⟩

/-- On an acyclic collection the top-level call returns once the depth bound
exceeds the number of comments. -/
theorem buildCommentTree_returns_of_noCycle (P : List Comment) (fuel : Nat)
    (hac : NoCycle looseEq P) (hfuel : P.length < fuel) :
    ∃ f, buildCommentTree P fuel JSVal.null = some f := by
  obtain ⟨k, rfl⟩ : ∃ k, fuel = k + 1 := ⟨fuel - 1, by omega⟩
  rw [buildCommentTree_succ]
  apply collectNodes_returns
  intro c hc
  rw [List.mem_filter] at hc
  obtain ⟨r, hr⟩ := buildCommentTree_returns P k c.id (fun b hb => by
    have := hopsBy_lt_length P.length P rfl hac k c.id b ⟨c, hc.1, rfl⟩ hb
    omega)
  exact ⟨CommentNode.mk c r, by rw [hr]; rfl⟩

mutual
theorem nodeSize_eq_length : ∀ n : CommentNode, n.size = n.nodes.length
  | CommentNode.mk c r => by
    simp only [CommentNode.size, CommentNode.nodes, List.length_cons, forestSize_eq_length r]
    omega
theorem forestSize_eq_length : ∀ f : List CommentNode, forestSize f = (forestNodes f).length
  | [] => rfl
  | n :: ns => by
    simp only [forestSize, forestNodes, List.length_append, nodeSize_eq_length n,
      forestSize_eq_length ns]
end

theorem forestIds_cons (n : CommentNode) (ns : List CommentNode) :
    forestIds (n :: ns) = (n.comment.id :: forestIds n.replies) ++ forestIds ns := by
  cases n with
  | mk c r =>
    simp [forestIds, forestNodes, CommentNode.nodes, CommentNode.comment, CommentNode.replies]

theorem forestIds_length (f : List CommentNode) : (forestIds f).length = forestSize f := by
  rw [forestSize_eq_length, forestIds, List.length_map]

theorem mem_forestIds (f : List CommentNode) (x : Int) :
    x ∈ forestIds f ↔ ∃ n ∈ f, x = n.comment.id ∨ x ∈ forestIds n.replies := by
  induction f with
  | nil => simp [forestIds, forestNodes]
  | cons n ns ih =>
    rw [forestIds_cons]
    simp only [List.mem_append, List.mem_cons, ih, exists_eq_or_imp]

/-- The ids in the forest built below `parentId` are those reached from the
comments that reply to `parentId`. -/
theorem buildCommentTree_ids (P : List Comment) :
    ∀ (fuel : Nat) (parentId : JSVal) (f : List CommentNode),
      buildCommentTree P fuel parentId = some f →
      ∀ x, x ∈ forestIds f ↔
        ∃ c ∈ P.filter (isReplyTo parentId), ReachBy looseEq P c.id x := by
  intro fuel
  induction fuel with
  | zero => intro parentId f h; simp [buildCommentTree] at h
  | succ fuel ih =>
    intro parentId f h x
    have hl := buildCommentTree_level P fuel parentId f h
    have step : ∀ (c : Comment) (n : CommentNode), n.comment = c →
        buildCommentTree P fuel (JSVal.num c.id) = some n.replies →
        ((x = n.comment.id ∨ x ∈ forestIds n.replies) ↔ ReachBy looseEq P c.id x) := by
      intro c n hcn hrec
      rw [ih _ _ hrec x, hcn]
      unfold ReachBy
      rw [Relation.ReflTransGen.cases_head_iff]
      constructor
      · rintro (h1 | ⟨d, hd, hdx⟩)
        · exact Or.inl h1.symm
        · rw [List.mem_filter, isReplyTo_num] at hd
          exact Or.inr ⟨d.id, ⟨d, hd.1, rfl, hd.2⟩, hdx⟩
      · rintro (h1 | ⟨y, ⟨d, hd, hdy, hpar⟩, hyx⟩)
        · exact Or.inl h1.symm
        · refine Or.inr ⟨d, ?_, hdy ▸ hyx⟩
          rw [List.mem_filter, isReplyTo_num]
          exact ⟨hd, hpar⟩
    rw [mem_forestIds]
    constructor
    · rintro ⟨n, hn, hx⟩
      obtain ⟨c, hc, hcn, hrec⟩ := forall₂_mem_right hl n hn
      exact ⟨c, hc, (step c n hcn hrec).mp hx⟩
    · rintro ⟨c, hc, hx⟩
      obtain ⟨n, hn, hcn, hrec⟩ := forall₂_mem_left hl c hc
      exact ⟨n, hn, (step c n hcn hrec).mpr hx⟩

theorem looseEq_num_unique (v : JSVal) (a b : Int) (ha : looseEq v (JSVal.num a) = true)
    (hb : looseEq v (JSVal.num b) = true) : a = b := by
  cases v with
  | null => simp [looseEq] at ha
  | undefined => simp [looseEq] at ha
  | num n =>
    simp only [looseEq, decide_eq_true_eq] at ha hb
    rw [← ha, ← hb]
  | str s =>
    simp only [looseEq, decide_eq_true_eq] at ha hb
    rw [ha] at hb
    exact Option.some.inj hb

theorem eq_of_id_eq {P : List Comment} (hnd : (P.map Comment.id).Nodup) {c d : Comment}
    (hc : c ∈ P) (hd : d ∈ P) (h : c.id = d.id) : c = d :=
  List.inj_on_of_nodup_map hnd hc hd h

/-- With distinct ids a comment has at most one parent id. -/
theorem childBy_parent_unique {P : List Comment} (hnd : (P.map Comment.id).Nodup)
    {y z x : Int} (h1 : ChildBy looseEq P y x) (h2 : ChildBy looseEq P z x) : y = z := by
  obtain ⟨c, hc, hcx, hcp⟩ := h1
  obtain ⟨d, hd, hdx, hdp⟩ := h2
  have hcd : c = d := eq_of_id_eq hnd hc hd (hcx.trans hdx.symm)
  subst hcd
  exact looseEq_num_unique _ _ _ hcp hdp

/-- With distinct ids the ancestors of an id form a chain. -/
theorem reachBy_comparable {P : List Comment} (hnd : (P.map Comment.id).Nodup)
    {a b x : Int} (ha : ReachBy looseEq P a x) (hb : ReachBy looseEq P b x) :
    ReachBy looseEq P a b ∨ ReachBy looseEq P b a := by
  induction ha with
  | refl => exact Or.inr hb
  | tail hay hyx ih =>
    rename_i y z
    rcases Relation.ReflTransGen.cases_tail hb with h | ⟨w, hbw, hwz⟩
    · subst h
      exact Or.inl (Relation.ReflTransGen.tail hay hyx)
    · have : w = y := childBy_parent_unique hnd hwz hyx
      subst this
      exact ih hbw

/-- Two replies to the same parent do not lie below one another. -/
theorem sibling_not_reach {P : List Comment} (hnd : (P.map Comment.id).Nodup)
    (hac : NoCycle looseEq P) (parentId : JSVal)
    (hpid : parentId = JSVal.null ∨ ∃ a, parentId = JSVal.num a) {c d : Comment}
    (hc : c ∈ P.filter (isReplyTo parentId)) (hd : d ∈ P.filter (isReplyTo parentId))
    (hne : c.id ≠ d.id) (h : ReachBy looseEq P c.id d.id) : False := by
  rcases Relation.ReflTransGen.cases_tail h with h1 | ⟨y, hcy, hyd⟩
  · exact hne h1.symm
  · rw [List.mem_filter] at hc hd
    obtain ⟨e, he, hed, hep⟩ := hyd
    have hed2 : e = d := eq_of_id_eq hnd he hd.1 hed
    subst hed2
    rcases hpid with rfl | ⟨a, rfl⟩
    · have hroot := hd.2
      simp only [isReplyTo, if_true, strictEq, Bool.or_eq_true, decide_eq_true_eq] at hroot
      rcases hroot with hr | hr <;> rw [hr] at hep <;> simp [looseEq] at hep
    · have hda := hd.2
      have hca := hc.2
      rw [isReplyTo_num] at hda hca
      have hya : y = a := looseEq_num_unique _ _ _ hep hda
      subst hya
      exact hac y (Relation.TransGen.head' ⟨c, hc.1, rfl, hca⟩ hcy)

theorem siblings_disjoint {P : List Comment} (hnd : (P.map Comment.id).Nodup)
    (hac : NoCycle looseEq P) (parentId : JSVal)
    (hpid : parentId = JSVal.null ∨ ∃ a, parentId = JSVal.num a) {c d : Comment}
    (hc : c ∈ P.filter (isReplyTo parentId)) (hd : d ∈ P.filter (isReplyTo parentId))
    (hne : c.id ≠ d.id) {x : Int} (h1 : ReachBy looseEq P c.id x)
    (h2 : ReachBy looseEq P d.id x) : False := by
  rcases reachBy_comparable hnd h1 h2 with h | h
  · exact sibling_not_reach hnd hac parentId hpid hc hd hne h
  · exact sibling_not_reach hnd hac parentId hpid hd hc (Ne.symm hne) h

/-- With distinct ids and no cycle no id occurs twice in the built forest. -/
theorem buildCommentTree_nodup {P : List Comment} (hnd : (P.map Comment.id).Nodup)
    (hac : NoCycle looseEq P) :
    ∀ (fuel : Nat) (parentId : JSVal) (f : List CommentNode),
      (parentId = JSVal.null ∨ ∃ a, parentId = JSVal.num a) →
      buildCommentTree P fuel parentId = some f → (forestIds f).Nodup := by
  intro fuel
  induction fuel with
  | zero => intro parentId f _ h; simp [buildCommentTree] at h
  | succ fuel ih =>
    intro parentId f hpid h
    have hl := buildCommentTree_level P fuel parentId f h
    have inner : ∀ (L : List Comment) (g : List CommentNode),
        List.Forall₂ (fun c n => n.comment = c ∧
          buildCommentTree P fuel (JSVal.num c.id) = some n.replies) L g →
        (∀ c ∈ L, c ∈ P.filter (isReplyTo parentId)) → (L.map Comment.id).Nodup →
        (forestIds g).Nodup ∧ ∀ x ∈ forestIds g, ∃ c ∈ L, ReachBy looseEq P c.id x := by
      intro L g hLg
      induction hLg with
      | nil =>
        intro _ _
        exact ⟨by simp [forestIds, forestNodes], by simp [forestIds, forestNodes]⟩
      | @cons c n L1 g1 hcn _ ihL =>
        intro hsub hLnd
        obtain ⟨hnc, hrec⟩ := hcn
        have hcP : c ∈ P.filter (isReplyTo parentId) := hsub c (List.mem_cons_self c L1)
        rw [List.map_cons, List.nodup_cons] at hLnd
        obtain ⟨ih1, ih2⟩ := ihL (fun d hd => hsub d (List.mem_cons_of_mem c hd)) hLnd.2
        have hids := buildCommentTree_ids P fuel _ _ hrec
        have hfirst : ∀ x ∈ n.comment.id :: forestIds n.replies, ReachBy looseEq P c.id x := by
          intro x hx
          rcases List.mem_cons.mp hx with hx | hx
          · rw [hx, hnc]; exact Relation.ReflTransGen.refl
          · obtain ⟨d, hd, hdx⟩ := (hids x).mp hx
            rw [List.mem_filter, isReplyTo_num] at hd
            exact Relation.ReflTransGen.head ⟨d, hd.1, rfl, hd.2⟩ hdx
        rw [forestIds_cons]
        refine ⟨?_, ?_⟩
        · rw [List.nodup_append]
          refine ⟨?_, ih1, ?_⟩
          · rw [List.nodup_cons]
            refine ⟨?_, ih _ _ (Or.inr ⟨c.id, rfl⟩) hrec⟩
            intro hmem
            obtain ⟨d, hd, hdx⟩ := (hids _).mp hmem
            rw [List.mem_filter, isReplyTo_num] at hd
            rw [hnc] at hdx
            exact hac c.id (Relation.TransGen.head' ⟨d, hd.1, rfl, hd.2⟩ hdx)
          · intro x hx1 hx2
            obtain ⟨d, hd, hdx⟩ := ih2 x hx2
            have hne : c.id ≠ d.id := by
              intro heq
              exact hLnd.1 (heq ▸ List.mem_map_of_mem Comment.id hd)
            exact siblings_disjoint hnd hac parentId hpid hcP
              (hsub d (List.mem_cons_of_mem c hd)) hne (hfirst x hx1) hdx
        · intro x hx
          rcases List.mem_append.mp hx with hx | hx
          · exact ⟨c, List.mem_cons_self c L1, hfirst x hx⟩
          · obtain ⟨d, hd, hdx⟩ := ih2 x hx
            exact ⟨d, List.mem_cons_of_mem c hd, hdx⟩
    have hsubl : (P.filter (isReplyTo parentId)).Sublist P := List.filter_sublist P
    exact (inner _ f hl (fun c hc => hc) ((hsubl.map Comment.id).nodup hnd)).1

/-- When every `parentId` that is not null or absent names a comment of an
acyclic collection, every comment lies below a top-level comment. -/
theorem reach_from_root {P : List Comment} (hac : NoCycle looseEq P)
    (hcl : ∀ c ∈ P, isReplyTo JSVal.null c = true ∨
      ∃ d ∈ P, looseEq c.parentId (JSVal.num d.id) = true) :
    ∀ c ∈ P, ∃ k ∈ P.filter (isReplyTo JSVal.null), ReachBy looseEq P k.id c.id := by
  intro c hc
  have climb : ∀ n : Nat, (∃ k ∈ P.filter (isReplyTo JSVal.null), ReachBy looseEq P k.id c.id) ∨
      ∃ d ∈ P, HopsBy looseEq P n d.id c.id := by
    intro n
    induction n with
    | zero => exact Or.inr ⟨c, hc, rfl⟩
    | succ n ih =>
      rcases ih with h | ⟨d, hd, hdc⟩
      · exact Or.inl h
      · rcases hcl d hd with hroot | ⟨e, he, hep⟩
        · exact Or.inl ⟨d, List.mem_filter.mpr ⟨hd, hroot⟩, hopsBy_reach n _ _ hdc⟩
        · exact Or.inr ⟨e, he, d.id, ⟨d, hd, rfl, hep⟩, hdc⟩
  rcases climb P.length with h | ⟨d, hd, hdc⟩
  · exact h
  · have := hopsBy_lt_length P.length P rfl hac P.length d.id c.id ⟨d, hd, rfl⟩ hdc
    omega

theorem reach_id_mem {P : List Comment} {a x : Int} (ha : a ∈ P.map Comment.id)
    (h : ReachBy looseEq P a x) : x ∈ P.map Comment.id := by
  rcases Relation.ReflTransGen.cases_tail h with h1 | ⟨y, _, ⟨c, hc, hcx, _⟩⟩
  · rw [h1]; exact ha
  · rw [← hcx]; exact List.mem_map_of_mem Comment.id hc

/-- The node count of the built forest on a closed, acyclic collection with
distinct ids. -/
theorem buildCommentTree_size {P : List Comment} (hnd : (P.map Comment.id).Nodup)
    (hac : NoCycle looseEq P)
    (hcl : ∀ c ∈ P, isReplyTo JSVal.null c = true ∨
      ∃ d ∈ P, looseEq c.parentId (JSVal.num d.id) = true)
    (fuel : Nat) (f : List CommentNode) (h : buildCommentTree P fuel JSVal.null = some f) :
    forestSize f = P.length := by
  have h1 := buildCommentTree_nodup hnd hac fuel JSVal.null f (Or.inl rfl) h
  have h2 := buildCommentTree_ids P fuel JSVal.null f h
  have hperm : (forestIds f).Perm (P.map Comment.id) := by
    rw [List.perm_ext_iff_of_nodup h1 hnd]
    intro x
    rw [h2 x]
    constructor
    · rintro ⟨c, hc, hcx⟩
      exact reach_id_mem (List.mem_map_of_mem Comment.id (List.mem_filter.mp hc).1) hcx
    · intro hx
      obtain ⟨c, hc, hcx⟩ := List.mem_map.mp hx
      rw [← hcx]
      exact reach_from_root hac hcl c hc
  rw [← forestIds_length, hperm.length_eq, List.length_map]

theorem no_dangling_after_filter (cs : List Comment) (rootId : Int) (p : Comment → Bool)
    (hp : ∀ c ∈ cs, (p c = true ↔ ¬ ReachBy strictEq cs rootId c.id)) :
    ∀ c ∈ cs.filter p, ∀ d ∈ cs, d ∉ cs.filter p → c.parentId ≠ JSVal.num d.id := by
  intro c hc d hd hdr hpar
  rw [List.mem_filter] at hc
  have hdreach : ReachBy strictEq cs rootId d.id := by
    by_contra hcon
    exact hdr (List.mem_filter.mpr ⟨hd, (hp d hd).mpr hcon⟩)
  apply (hp c hc.1).mp hc.2
  exact Relation.ReflTransGen.tail hdreach ⟨c, hc.1, rfl, by simp [strictEq, hpar]⟩

theorem isReplyTo_null (c : Comment) :
    isReplyTo JSVal.null c = decide (c.parentId = JSVal.null ∨ c.parentId = JSVal.undefined) := by
  rw [Bool.eq_iff_iff]
  simp [isReplyTo, strictEq]

theorem orphanReply_tree (fuel : Nat) (f : List CommentNode)
    (h : commentTree fuel orphanReply "7" = some f) : f = [] := by
  cases fuel with
  | zero => simp [commentTree, buildCommentTree] at h
  | succ k =>
    have h2 : commentTree (k + 1) orphanReply "7" = some [] := by
      unfold commentTree
      rw [buildCommentTree_succ]
      have : (postCommentsOf orphanReply "7").filter (isReplyTo JSVal.null) = [] := by decide
      rw [this]
      rfl
    rw [h2] at h
    exact (Option.some.inj h).symm

section Divergence
open Classical

/-- A cycle outside a child-closed set of removed ids survives the removal. -/
theorem cycle_restrict {eq : JSVal → JSVal → Bool} {cs : List Comment} (q : Int → Bool)
    (hq : ∀ x y, q x = true → ChildBy eq cs x y → q y = true) {z : Int}
    (h : Relation.TransGen (ChildBy eq cs) z z) (hz : q z = false) :
    Relation.TransGen (ChildBy eq (cs.filter (fun c => !q c.id))) z z := by
  obtain ⟨y, hzy, hyz⟩ := (Relation.TransGen.head'_iff).mp h
  have hy : q y = false := by
    cases hqy : q y with
    | false => rfl
    | true =>
      have hall : ∀ w, ReachBy eq cs y w → q w = true := by
        intro w hw
        induction hw with
        | refl => exact hqy
        | tail _ hbc ih => exact hq _ _ ih hbc
      rw [hall z hyz] at hz
      exact absurd hz (by simp)
  refine (Relation.TransGen.head'_iff).mpr ⟨y, ?_, reachBy_restrict q hq hyz hz⟩
  obtain ⟨c, hc, hid, hpar⟩ := hzy
  exact ⟨c, List.mem_filter.mpr ⟨hc, by simp [hid, hy]⟩, hid, hpar⟩

/-- One returned call inside the loop, seen from the collection the loop
started with. -/
theorem deleteWithChildren_step (s t t1 : List Comment) (q : Int → Bool) (fuel : Nat) (k : Int)
    (hq : ∀ x y, q x = true → ChildBy strictEq s x y → q y = true)
    (ht : t = s.filter (fun c => !q c.id))
    (h : deleteWithChildren fuel t k = some t1) :
    t1 = s.filter (fun c => !(q c.id || decide (ReachBy strictEq s k c.id))) := by
  rw [deleteWithChildren_spec fuel t k t1 h, ht, List.filter_filter]
  apply List.filter_congr
  intro c _
  rw [Bool.eq_iff_iff]
  simp only [Bool.and_eq_true, decide_eq_true_eq, Bool.not_eq_true', Bool.or_eq_false_iff,
    decide_eq_false_iff_not]
  constructor
  · rintro ⟨h1, h2⟩
    exact ⟨h2, fun h3 => h1 (reachBy_restrict q hq h3 h2)⟩
  · rintro ⟨h1, h2⟩
    exact ⟨fun h3 => h2 (reachBy_mono (fun d hd => (List.mem_filter.mp hd).1) h3), h1⟩

/-- The recursion never returns from an id that reaches a cycle. -/
theorem deleteWithChildren_diverges :
    ∀ (fuel : Nat) (s : List Comment) (id : Int),
      (∃ z, ReachBy strictEq s id z ∧ Relation.TransGen (ChildBy strictEq s) z z) →
      deleteWithChildren fuel s id = none := by
  intro fuel
  induction fuel with
  | zero => intro s id _; rfl
  | succ fuel ih =>
    intro s id hcyc
    have loop : ∀ (ks t : List Comment) (q : Int → Bool),
        (∀ x y, q x = true → ChildBy strictEq s x y → q y = true) →
        t = s.filter (fun c => !q c.id) →
        (∃ k ∈ ks, ∃ z, ReachBy strictEq s k.id z ∧
          Relation.TransGen (ChildBy strictEq s) z z ∧ q z = false) →
        deleteLoop (deleteWithChildren fuel) ks t = none := by
      intro ks
      induction ks with
      | nil => rintro t q _ _ ⟨k, hk, _⟩; simp at hk
      | cons k0 rest ihk =>
        intro t q hq ht hex
        simp only [deleteLoop]
        cases h0 : deleteWithChildren fuel t k0.id with
        | none => rfl
        | some t1 =>
          have hnot : ∀ z, ReachBy strictEq s k0.id z →
              Relation.TransGen (ChildBy strictEq s) z z → q z = false → False := by
            intro z hz hzz hqz
            have hdiv := ih t k0.id ⟨z, by rw [ht]; exact reachBy_restrict q hq hz hqz,
              by rw [ht]; exact cycle_restrict q hq hzz hqz⟩
            rw [hdiv] at h0
            exact absurd h0 (by simp)
          obtain ⟨k, hk, z, hkz, hzz, hqz⟩ := hex
          have hkrest : k ∈ rest := by
            rcases List.mem_cons.mp hk with rfl | hk
            · exact absurd hqz (fun h => hnot z hkz hzz h)
            · exact hk
          apply ihk t1 (fun x => q x || decide (ReachBy strictEq s k0.id x))
          · intro x y hx hxy
            simp only [Bool.or_eq_true, decide_eq_true_eq] at hx ⊢
            rcases hx with hx | hx
            · exact Or.inl (hq x y hx hxy)
            · exact Or.inr (Relation.ReflTransGen.tail hx hxy)
          · exact deleteWithChildren_step s t t1 q fuel k0.id hq ht h0
          · refine ⟨k, hkrest, z, hkz, hzz, ?_⟩
            simp only [Bool.or_eq_false_iff, decide_eq_false_iff_not]
            exact ⟨hqz, fun h => hnot z h hzz hqz⟩
    obtain ⟨z, hidz, hzz⟩ := hcyc
    have hchild : ∃ k ∈ s.filter (fun c => strictEq c.parentId (JSVal.num id)),
        ∃ w, ReachBy strictEq s k.id w ∧ Relation.TransGen (ChildBy strictEq s) w w ∧
          (fun _ : Int => false) w = false := by
      rcases Relation.ReflTransGen.cases_head hidz with h | ⟨y, ⟨c, hc, hcy, hcp⟩, hyz⟩
      · subst h
        obtain ⟨y, ⟨c, hc, hcy, hcp⟩, hyz⟩ := (Relation.TransGen.head'_iff).mp hzz
        exact ⟨c, List.mem_filter.mpr ⟨hc, hcp⟩, id, by rw [hcy]; exact hyz, hzz, rfl⟩
      · exact ⟨c, List.mem_filter.mpr ⟨hc, hcp⟩, z, by rw [hcy]; exact hyz, hzz, rfl⟩
    have hl := loop _ s (fun _ => false) (fun x y hx _ => by simp at hx) (by simp) hchild
    simp only [deleteWithChildren, hl]

/-- Below an id that reaches no cycle every chain is shorter than the
collection. -/
theorem hopsBy_le_length_below {eq : JSVal → JSVal → Bool} {cs : List Comment} {root : Int}
    (h : NoCycleBelow eq cs root) (n : Nat) (b : Int) (hp : HopsBy eq cs n root b) :
    n ≤ cs.length := by
  have hsub : ∀ c ∈ cs.filter (fun c => decide (ReachBy eq cs root c.id)), c ∈ cs :=
    fun c hc => (List.mem_filter.mp hc).1
  have hac : NoCycle eq (cs.filter (fun c => decide (ReachBy eq cs root c.id))) := by
    intro z hz
    have hz2 : Relation.TransGen (ChildBy eq cs) z z :=
      Relation.TransGen.mono (fun a b hab => childBy_mono hsub hab) hz
    obtain ⟨y, _, ⟨c, hc, hcz, _⟩⟩ := (Relation.TransGen.tail'_iff).mp hz
    have hreach : ReachBy eq cs root z := by
      have := (List.mem_filter.mp hc).2
      simp only [decide_eq_true_eq] at this
      rw [← hcz]; exact this
    exact h z hreach hz2
  have hmove : ∀ (m : Nat) (a : Int), ReachBy eq cs root a → HopsBy eq cs m a b →
      HopsBy eq (cs.filter (fun c => decide (ReachBy eq cs root c.id))) m a b := by
    intro m
    induction m with
    | zero => intro a _ h0; exact h0
    | succ m ihm =>
      rintro a ha ⟨x, hax, hxb⟩
      have hx : ReachBy eq cs root x := Relation.ReflTransGen.tail ha hax
      refine ⟨x, ?_, ihm x hx hxb⟩
      obtain ⟨c, hc, hcx, hcp⟩ := hax
      exact ⟨c, List.mem_filter.mpr ⟨hc, by simp only [decide_eq_true_eq]; rw [hcx]; exact hx⟩,
        hcx, hcp⟩
  have h1 := hopsBy_le_length hac n root b (hmove n root Relation.ReflTransGen.refl hp)
  have h2 : (cs.filter (fun c => decide (ReachBy eq cs root c.id))).length ≤ cs.length :=
    List.length_filter_le _ _
  omega

end Divergence

theorem deleteWithChildren_returns_below (cs : List Comment) (id : Int) (fuel : Nat)
    (h : NoCycleBelow strictEq cs id) (hfuel : cs.length < fuel) :
    ∃ r, deleteWithChildren fuel cs id = some r := by
  apply deleteWithChildren_returns
  intro b hb
  have := hopsBy_le_length_below h fuel b hb
  omega


theorem noCycleBelow_of_noCycle {eq : JSVal → JSVal → Bool} {cs : List Comment}
    (h : NoCycle eq cs) (root : Int) : NoCycleBelow eq cs root :=
  fun z _ hz => h z hz

theorem deleteCommentHandler_of_none (cs : List Comment) (rootId : Int) (fuel : Nat)
    (hroot : ∃ c ∈ cs, c.id = rootId) (h : deleteWithChildren fuel cs rootId = none) :
    deleteCommentHandler fuel cs rootId =
      { status := 500, error := some "Không thể xoá comment", written := none } := by
  obtain ⟨c0, hc0, hc0id⟩ := hroot
  cases hf : cs.find? (fun c => decide (c.id = rootId)) with
  | some c => simp only [deleteCommentHandler, hf, h]
  | none =>
    rw [List.find?_eq_none] at hf
    exact absurd (by simpa using hc0id) (hf c0 hc0)

theorem deleteCommentHandler_of_some (cs r : List Comment) (rootId : Int) (fuel : Nat)
    (hroot : ∃ c ∈ cs, c.id = rootId) (h : deleteWithChildren fuel cs rootId = some r) :
    deleteCommentHandler fuel cs rootId =
      { status := 204, error := none, written := some r } := by
  obtain ⟨c0, hc0, hc0id⟩ := hroot
  cases hf : cs.find? (fun c => decide (c.id = rootId)) with
  | some c => simp only [deleteCommentHandler, hf, h]
  | none =>
    rw [List.find?_eq_none] at hf
    exact absurd (by simpa using hc0id) (hf c0 hc0)

/-- What the handler does in terms of the exact matches `parentId === id` it
makes: on a collection without a cycle of exact matches and for the id of an
existing comment it answers 204 and writes the input comments that are not
reached from `rootId` by exact matches, in their input order, and no comment
that remains has a `parentId` that is exactly the id of a removed comment. -/
theorem deleteCommentHandler_exact_matches (cs : List Comment) (rootId : Int) (fuel : Nat)
    (hac : NoCycle strictEq cs) (hroot : ∃ c ∈ cs, c.id = rootId) (hfuel : cs.length ≤ fuel)
    (p : Comment → Bool) (hp : ∀ c ∈ cs, (p c = true ↔ ¬ ReachBy strictEq cs rootId c.id)) :
    deleteCommentHandler fuel cs rootId =
      { status := 204, error := none, written := some (cs.filter p) } ∧
    storedAfterDelete fuel cs rootId = cs.filter p ∧
    (∀ c ∈ cs.filter p, ∀ d ∈ cs, d ∉ cs.filter p → c.parentId ≠ JSVal.num d.id) := by
  have h1 := deleteCommentHandler_ok cs rootId fuel hac hroot hfuel p hp
  refine ⟨h1, ?_, no_dangling_after_filter cs rootId p hp⟩
  simp only [storedAfterDelete, h1, Option.getD_some]

/-- Deleting comment 1 of the three-comment thread leaves nothing. -/
theorem deleteCommentHandler_chainOfThree :
    deleteCommentHandler 3 chainOfThree 1 =
      { status := 204, error := none, written := some [] } := by
  decide

theorem mixedPair_noCycle : NoCycle looseEq mixedPair := by
  apply noCycle_of_rank id
  rintro a b ⟨c, hc, hid, hpar⟩
  simp only [mixedPair, List.mem_cons, List.mem_singleton, List.not_mem_nil, or_false] at hc
  rcases hc with rfl | rfl
  · simp [looseEq] at hpar
  · simp only [looseEq, decide_eq_true_eq] at hpar
    have h1 : stringToNumber "1" = some 1 := by decide
    rw [h1] at hpar
    have ha : (1 : Int) = a := Option.some.inj hpar
    subst hid ha
    decide

theorem mixedPair_delete (fuel : Nat) :
    deleteWithChildren (fuel + 1) mixedPair 1 =
      some [{ id := 2, postId := JSVal.num 7, parentId := JSVal.str "1", author := "bob",
              body := "y" }] := by
  have hf : mixedPair.filter (fun c => strictEq c.parentId (JSVal.num 1)) = [] := by decide
  have hg : mixedPair.filter (fun c => decide (c.id ≠ 1)) =
      [{ id := 2, postId := JSVal.num 7, parentId := JSVal.str "1", author := "bob",
         body := "y" }] := by decide
  simp only [deleteWithChildren, hf, deleteLoop, hg]

/-! ## The claims -/

/-- C1 at a failing input: the collection of comment 1 and of comment 2 with
`parentId` stored as the text `"1"` has distinct ids and no cycle, id 1 exists
and comment 2 is reached from it by one `parentId` hop by value; yet for every
depth bound the deletion of 1 answers 204 and stores comment 2, which is
reached from the root and whose `parentId` equals by value the id of the
removed comment 1. -/
theorem delete_keeps_reply_reached_by_value :
    (mixedPair.map Comment.id).Nodup ∧
    NoCycle looseEq mixedPair ∧
    (∃ c ∈ mixedPair, c.id = 1) ∧
    ReachBy looseEq mixedPair 1 2 ∧
    (∀ fuel, deleteCommentHandler (fuel + 1) mixedPair 1 =
      { status := 204, error := none,
        written := some [{ id := 2, postId := JSVal.num 7, parentId := JSVal.str "1",
                           author := "bob", body := "y" }] }) ∧
    (∀ fuel, ∃ c ∈ storedAfterDelete (fuel + 1) mixedPair 1,
      ReachBy looseEq mixedPair 1 c.id ∧
      ∃ d ∈ mixedPair, d ∉ storedAfterDelete (fuel + 1) mixedPair 1 ∧
        looseEq c.parentId (JSVal.num d.id) = true) := by
  have hreach : ReachBy looseEq mixedPair 1 2 :=
    Relation.ReflTransGen.single
      ⟨_, List.mem_cons_of_mem _ (List.mem_cons_self _ _), rfl, by decide⟩
  have hh : ∀ fuel, deleteCommentHandler (fuel + 1) mixedPair 1 =
      { status := 204, error := none,
        written := some [{ id := 2, postId := JSVal.num 7, parentId := JSVal.str "1",
                           author := "bob", body := "y" }] } := fun fuel =>
    deleteCommentHandler_of_some mixedPair _ 1 (fuel + 1)
      ⟨_, List.mem_cons_self _ _, rfl⟩ (mixedPair_delete fuel)
  refine ⟨by decide, mixedPair_noCycle, ⟨_, List.mem_cons_self _ _, rfl⟩, hreach, hh, ?_⟩
  intro fuel
  have hs : storedAfterDelete (fuel + 1) mixedPair 1 =
      [{ id := 2, postId := JSVal.num 7, parentId := JSVal.str "1", author := "bob",
         body := "y" }] := by
    simp only [storedAfterDelete, hh fuel, Option.getD_some]
  rw [hs]
  refine ⟨_, List.mem_cons_self _ _, hreach, ?_⟩
  exact ⟨{ id := 1, postId := JSVal.num 7, parentId := JSVal.null, author := "ann",
           body := "x" }, List.mem_cons_self _ _, by decide, by decide⟩

/-- C2: every reaction state reached from the empty state by any sequence of
requests (any user, any action text) keeps `userLiked` and `userDisliked`
disjoint and duplicate-free, with `likes` and `dislikes` equal to the numbers
of users in them, so that neither counter is negative. -/
theorem reaction_invariant_reachable (steps : List (String × String)) :
    (∀ u, ¬ (u ∈ (applyReactions emptyReactions steps).userLiked ∧
             u ∈ (applyReactions emptyReactions steps).userDisliked)) ∧
    (applyReactions emptyReactions steps).likes =
      ((applyReactions emptyReactions steps).userLiked.toFinset.card : Int) ∧
    (applyReactions emptyReactions steps).dislikes =
      ((applyReactions emptyReactions steps).userDisliked.toFinset.card : Int) ∧
    0 ≤ (applyReactions emptyReactions steps).likes ∧
    0 ≤ (applyReactions emptyReactions steps).dislikes ∧
    ReactionInv (applyReactions emptyReactions steps) := by
  have h := applyReactions_inv steps emptyReactions emptyReactions_inv
  obtain ⟨hl, hd, hx, hcl, hcd⟩ := h
  refine ⟨fun u hu => hx u hu.1 hu.2, ?_, ?_, ?_, ?_, ⟨hl, hd, hx, hcl, hcd⟩⟩
  · rw [List.toFinset_card_of_nodup hl]; exact hcl
  · rw [List.toFinset_card_of_nodup hd]; exact hcd
  · rw [hcl]; exact Int.natCast_nonneg _
  · rw [hcd]; exact Int.natCast_nonneg _

/-- C3: on a reaction state that satisfies the data-model invariant the handler
follows the transition table of the specification: for user `u` and each of
the four actions, the standing of `u` afterwards and the change of both
counters are those of the table row, every other user keeps their place, a
no-op row leaves the state as it was, and the invariant holds afterwards. -/
theorem reaction_matches_table (s : ReactionState) (u : String) (a : Action)
    (h : ReactionInv s) :
    (u ∈ (applyReaction s u a.name).userLiked ↔
      (specTransition (standingOf s u) a).newStanding = Standing.liked) ∧
    (u ∈ (applyReaction s u a.name).userDisliked ↔
      (specTransition (standingOf s u) a).newStanding = Standing.disliked) ∧
    (applyReaction s u a.name).likes =
      s.likes + (specTransition (standingOf s u) a).likesDelta ∧
    (applyReaction s u a.name).dislikes =
      s.dislikes + (specTransition (standingOf s u) a).dislikesDelta ∧
    (∀ v, v ≠ u →
      ((v ∈ (applyReaction s u a.name).userLiked ↔ v ∈ s.userLiked) ∧
       (v ∈ (applyReaction s u a.name).userDisliked ↔ v ∈ s.userDisliked))) ∧
    (specTransition (standingOf s u) a = ⟨standingOf s u, 0, 0⟩ →
      applyReaction s u a.name = s) ∧
    ReactionInv (applyReaction s u a.name) :=
  applyReaction_table s u a h

/-- Witness of C3: from the empty state a like by alice, then a dislike by alice. -/
theorem reaction_matches_table_witness :
    ReactionInv emptyReactions ∧
    ("alice" ∈ (applyReaction emptyReactions "alice" Action.like.name).userLiked ↔
      (specTransition (standingOf emptyReactions "alice") Action.like).newStanding
        = Standing.liked) ∧
    applyReaction emptyReactions "alice" "like" =
      { likes := 1, dislikes := 0, userLiked := ["alice"], userDisliked := [] } ∧
    applyReaction (applyReaction emptyReactions "alice" "like") "alice" "dislike" =
      { likes := 0, dislikes := 1, userLiked := [], userDisliked := ["alice"] } :=
  ⟨by decide, (reaction_matches_table emptyReactions "alice" Action.like (by decide)).1,
    by decide, by decide⟩

/-- C5 fails on the handler: the unknown action `"love"` is answered with
status 200 and the unchanged state, and the document is written. -/
theorem unknown_action_reports_success :
    likeHandler emptyReactions "alice" "love" =
      { post := emptyReactions, saved := true, status := 200, message := none } := by
  decide

/-- C5 as amended: for an action text that is none of like, dislike, unlike,
undislike the handler leaves the reaction state unmodified and answers with
status 200 and the current state; it raises no error. -/
theorem unknown_action_keeps_state (s : ReactionState) (u a : String)
    (h1 : a ≠ "like") (h2 : a ≠ "dislike") (h3 : a ≠ "unlike") (h4 : a ≠ "undislike") :
    likeHandler s u a = { post := s, saved := true, status := 200, message := none } ∧
    applyReaction s u a = s := by
  have h := likeHandler_unrecognized s u a h1 h2 h3 h4
  exact ⟨h, by rw [applyReaction, h]⟩

/-- Witness of the amended C5 on a state with one like. -/
theorem unknown_action_keeps_state_witness :
    likeHandler { likes := 1, dislikes := 0, userLiked := ["bob"], userDisliked := [] }
        "bob" "LIKE" =
      { post := { likes := 1, dislikes := 0, userLiked := ["bob"], userDisliked := [] },
        saved := true, status := 200, message := none } :=
  (unknown_action_keeps_state _ "bob" "LIKE" (by decide) (by decide) (by decide)
    (by decide)).1

/-- C6: for an id that no comment carries the handler answers 404 with the
error `Comment not found`, calls `writeDB` not at all, and the stored comment
collection is the one it was. -/
theorem delete_missing_id_not_found (cs : List Comment) (rootId : Int) (fuel : Nat)
    (h : ∀ c ∈ cs, c.id ≠ rootId) :
    deleteCommentHandler fuel cs rootId =
      { status := 404, error := some "Comment not found", written := none } ∧
    storedAfterDelete fuel cs rootId = cs := by
  have h1 := deleteCommentHandler_notFound cs rootId fuel h
  exact ⟨h1, by simp only [storedAfterDelete, h1, Option.getD_none]⟩

/-- Witness of C6: id 9 in the three-comment thread. -/
theorem delete_missing_id_not_found_witness :
    deleteCommentHandler 5 chainOfThree 9 =
      { status := 404, error := some "Comment not found", written := none } ∧
    storedAfterDelete 5 chainOfThree 9 = chainOfThree :=
  delete_missing_id_not_found chainOfThree 9 5 (by decide)

/-- C7 fails on the code: on two comments that are each other's parent the
recursion from id 1 returns for no depth bound, and the handler answers 500
whatever the bound. -/
theorem delete_cycle_never_returns :
    (¬ ∃ fuel r, deleteWithChildren fuel cyclicPair 1 = some r) ∧
    (¬ ∃ fuel, (deleteCommentHandler fuel cyclicPair 1).status ≠ 500) := by
  constructor
  · rintro ⟨fuel, r, h⟩
    rw [(cyclicPair_diverges fuel).1] at h
    exact absurd h (by simp)
  · rintro ⟨fuel, h⟩
    apply h
    have hf : cyclicPair.find? (fun c => decide (c.id = 1)) =
        some { id := 1, postId := JSVal.num 7, parentId := JSVal.num 2, author := "ann",
               body := "x" } := by decide
    simp only [deleteCommentHandler, hf, (cyclicPair_diverges fuel).1]

/-- C7 as amended: the recursion from `rootId` returns, for some depth bound,
exactly when no comment reached from `rootId` is its own ancestor, hops being
the exact matches `parentId === id` the traversal makes; in that
case every bound above the number of comments gives a result that holds only
input comments, and the handler answers 204 for an existing id.  When a cycle
is reached from an existing `rootId` the handler answers 500 for every bound
and writes nothing: the code keeps no set of visited ids. -/
theorem delete_returns_iff_no_cycle_below (cs : List Comment) (rootId : Int) :
    ((∃ fuel r, deleteWithChildren fuel cs rootId = some r) ↔
      NoCycleBelow strictEq cs rootId) ∧
    (NoCycleBelow strictEq cs rootId → ∀ fuel, cs.length < fuel →
      (∃ r, deleteWithChildren fuel cs rootId = some r ∧ ∀ c ∈ r, c ∈ cs) ∧
      ((∃ c ∈ cs, c.id = rootId) → (deleteCommentHandler fuel cs rootId).status = 204)) ∧
    (¬ NoCycleBelow strictEq cs rootId → (∃ c ∈ cs, c.id = rootId) → ∀ fuel,
      deleteCommentHandler fuel cs rootId =
        { status := 500, error := some "Không thể xoá comment", written := none }) := by
  have hdiv : ¬ NoCycleBelow strictEq cs rootId → ∀ fuel,
      deleteWithChildren fuel cs rootId = none := by
    intro hno fuel
    apply deleteWithChildren_diverges
    by_contra hcon
    apply hno
    intro z hz hzz
    exact hcon ⟨z, hz, hzz⟩
  refine ⟨⟨?_, ?_⟩, ?_, ?_⟩
  · rintro ⟨fuel, r, hr⟩
    by_contra hno
    rw [hdiv hno fuel] at hr
    exact absurd hr (by simp)
  · intro h
    obtain ⟨r, hr⟩ := deleteWithChildren_returns_below cs rootId (cs.length + 1) h
      (Nat.lt_succ_self _)
    exact ⟨cs.length + 1, r, hr⟩
  · intro h fuel hfuel
    obtain ⟨r, hr⟩ := deleteWithChildren_returns_below cs rootId fuel h hfuel
    refine ⟨⟨r, hr, ?_⟩, ?_⟩
    · intro c hc
      rw [deleteWithChildren_spec fuel cs rootId r hr] at hc
      exact (List.mem_filter.mp hc).1
    · intro hroot
      rw [deleteCommentHandler_of_some cs r rootId fuel hroot hr]
  · intro hno hroot fuel
    exact deleteCommentHandler_of_none cs rootId fuel hroot (hdiv hno fuel)

/-- Witness of the amended C7: the three-comment thread, from id 2. -/
theorem delete_returns_iff_no_cycle_below_witness :
    (∃ r, deleteWithChildren 4 chainOfThree 2 = some r ∧ ∀ c ∈ r, c ∈ chainOfThree) ∧
    ((∃ c ∈ chainOfThree, c.id = 2) → (deleteCommentHandler 4 chainOfThree 2).status = 204) :=
  (delete_returns_iff_no_cycle_below chainOfThree 2).2.1
    (noCycleBelow_of_noCycle (chainOfThree_noCycle strictEq (fun v a h => by
      have hv : v = JSVal.num a := by simpa [strictEq] using h
      simp [hv, looseEq])) 2)
    4 (by decide)

/-- C8: on a reaction state that satisfies the data-model invariant, applying
one of the four actions for a user twice gives the state that applying it once
gives, and the second of two likes is answered with the message that the post
was liked already, with the state unchanged and nothing written. -/
theorem reaction_idempotent (s : ReactionState) (u : String) (a : Action)
    (h : ReactionInv s) :
    applyReaction (applyReaction s u a.name) u a.name = applyReaction s u a.name ∧
    likeHandler (applyReaction s u "like") u "like" =
      { post := applyReaction s u "like", saved := false, status := 200,
        message := some "Bạn đã like bài viết này!" } :=
  ⟨applyReaction_twice s u a h, second_like_reported s u h⟩

/-- Witness of C8: two likes by alice on the empty state. -/
theorem reaction_idempotent_witness :
    applyReaction (applyReaction emptyReactions "alice" Action.like.name) "alice"
        Action.like.name = applyReaction emptyReactions "alice" Action.like.name ∧
    likeHandler (applyReaction emptyReactions "alice" "like") "alice" "like" =
      { post := applyReaction emptyReactions "alice" "like", saved := false, status := 200,
        message := some "Bạn đã like bài viết này!" } ∧
    applyReaction emptyReactions "alice" "like" =
      { likes := 1, dislikes := 0, userLiked := ["alice"], userDisliked := [] } :=
  ⟨(reaction_idempotent emptyReactions "alice" Action.like (by decide)).1,
   (reaction_idempotent emptyReactions "alice" Action.like (by decide)).2, by decide⟩

/-- C9 at its witness: the tree builder nests comment 2, whose `parentId` is
the text `"1"`, under comment 1, while deleting comment 1 answers 204 and
writes a collection that still holds comment 2. -/
theorem delete_misses_text_parent :
    commentTree 3 mixedPair "7" =
      some [CommentNode.mk
        { id := 1, postId := JSVal.num 7, parentId := JSVal.null, author := "ann", body := "x" }
        [CommentNode.mk
          { id := 2, postId := JSVal.num 7, parentId := JSVal.str "1", author := "bob",
            body := "y" } []]] ∧
    deleteCommentHandler 3 mixedPair 1 =
      { status := 204, error := none,
        written := some [{ id := 2, postId := JSVal.num 7, parentId := JSVal.str "1",
                           author := "bob", body := "y" }] } :=
  ⟨rfl, by decide⟩

/-- C4 fails on the code: a reply whose parent is not stored matches the post
but is in no tree, so for no depth bound does the node count of the answer
equal the number of matching comments. -/
theorem tree_drops_orphan :
    ¬ ∃ fuel f, commentTree fuel orphanReply "7" = some f ∧
      forestSize f = (postCommentsOf orphanReply "7").length := by
  rintro ⟨fuel, f, hf, hsize⟩
  have hnil := orphanReply_tree fuel f hf
  subst hnil
  revert hsize
  decide

/-- C4 as amended: when the comments that match the post have pairwise
distinct ids, no `parentId` cycle, and every `parentId` that is neither null nor
absent equals by value the id of a matching comment, the tree builder returns
(for a depth bound above the number of matching comments) a forest in which no
id occurs twice and whose node count, nested replies included, is the number
of matching comments. -/
theorem tree_node_count (comments : List Comment) (postId : String) (fuel : Nat)
    (hnd : ((postCommentsOf comments postId).map Comment.id).Nodup)
    (hac : NoCycle looseEq (postCommentsOf comments postId))
    (hcl : ∀ c ∈ postCommentsOf comments postId,
      c.parentId = JSVal.null ∨ c.parentId = JSVal.undefined ∨
      ∃ d ∈ postCommentsOf comments postId, looseEq c.parentId (JSVal.num d.id) = true)
    (hfuel : (postCommentsOf comments postId).length < fuel) :
    ∃ f, commentTree fuel comments postId = some f ∧
      forestSize f = (postCommentsOf comments postId).length ∧
      (forestIds f).Nodup := by
  obtain ⟨f, hf⟩ := buildCommentTree_returns_of_noCycle _ fuel hac hfuel
  have hcl2 : ∀ c ∈ postCommentsOf comments postId, isReplyTo JSVal.null c = true ∨
      ∃ d ∈ postCommentsOf comments postId, looseEq c.parentId (JSVal.num d.id) = true := by
    intro c hc
    rcases hcl c hc with h | h | h
    · exact Or.inl (by rw [isReplyTo_null]; simp [h])
    · exact Or.inl (by rw [isReplyTo_null]; simp [h])
    · exact Or.inr h
  exact ⟨f, hf, buildCommentTree_size hnd hac hcl2 fuel f hf,
    buildCommentTree_nodup hnd hac fuel JSVal.null f (Or.inl rfl) hf⟩

/-- Witness of the amended C4: the three-comment thread has three nodes. -/
theorem tree_node_count_witness :
    ∃ f, commentTree 4 chainOfThree "7" = some f ∧
      forestSize f = (postCommentsOf chainOfThree "7").length ∧
      (forestIds f).Nodup :=
  tree_node_count chainOfThree "7" 4 (by decide)
    (noCycle_mono (fun c hc => (List.mem_filter.mp hc).1)
      (chainOfThree_noCycle looseEq (fun _ _ h => h)))
    (by decide) (by decide)

/-- C10: when the comments that match the post have no `parentId` cycle, the
tree builder returns (for a depth bound above their number) a forest whose
roots are, in input order, exactly the matching comments with a null or absent
`parentId`, and in which the replies of every node, at any depth, are, in
input order, exactly the matching comments whose `parentId` equals by value
the id of that node. -/
theorem tree_preserves_order (comments : List Comment) (postId : String) (fuel : Nat)
    (hac : NoCycle looseEq (postCommentsOf comments postId))
    (hfuel : (postCommentsOf comments postId).length < fuel) :
    ∃ f, commentTree fuel comments postId = some f ∧
      f.map CommentNode.comment =
        (postCommentsOf comments postId).filter
          (fun c => decide (c.parentId = JSVal.null ∨ c.parentId = JSVal.undefined)) ∧
      ∀ n ∈ forestNodes f,
        n.replies.map CommentNode.comment =
          (postCommentsOf comments postId).filter
            (fun c => looseEq c.parentId (JSVal.num n.comment.id)) := by
  obtain ⟨f, hf⟩ := buildCommentTree_returns_of_noCycle _ fuel hac hfuel
  obtain ⟨h1, h2⟩ := buildCommentTree_nested _ fuel JSVal.null f hf
  refine ⟨f, hf, ?_, ?_⟩
  · rw [h1]
    exact List.filter_congr (fun c _ => isReplyTo_null c)
  · intro n hn
    rw [h2 n hn]
    exact List.filter_congr (fun c _ => isReplyTo_num n.comment.id c)

/-- Witness of C10: the three-comment thread gives one root with one reply
with one reply. -/
theorem tree_preserves_order_witness :
    (∃ f, commentTree 4 chainOfThree "7" = some f ∧
      f.map CommentNode.comment =
        (postCommentsOf chainOfThree "7").filter
          (fun c => decide (c.parentId = JSVal.null ∨ c.parentId = JSVal.undefined)) ∧
      ∀ n ∈ forestNodes f,
        n.replies.map CommentNode.comment =
          (postCommentsOf chainOfThree "7").filter
            (fun c => looseEq c.parentId (JSVal.num n.comment.id))) ∧
    commentTree 4 chainOfThree "7" =
      some [CommentNode.mk
        { id := 1, postId := JSVal.num 7, parentId := JSVal.null, author := "ann", body := "x" }
        [CommentNode.mk
          { id := 2, postId := JSVal.num 7, parentId := JSVal.num 1, author := "bob",
            body := "y" }
          [CommentNode.mk
            { id := 3, postId := JSVal.num 7, parentId := JSVal.num 2, author := "cat",
              body := "z" } []]]] :=
  ⟨tree_preserves_order chainOfThree "7" 4
    (noCycle_mono (fun c hc => (List.mem_filter.mp hc).1)
      (chainOfThree_noCycle looseEq (fun _ _ h => h)))
    (by decide), rfl⟩

end ASM
